import Mathlib

set_option autoImplicit false

/-!
Verification of the natural-language date parser of gcal-smart-add
(`src/parser/InputParser.ts`), via a shallow embedding.

Strings are `List Char`.  JavaScript regular expressions are embedded as a
small backtracking matcher (`Rx.mtch`) whose result list is in the engine's
preference order (greedy, ordered alternation), so that the head of the list
is the JS match.  Dates (`new Date(y, m, d)` values) are embedded as
milliseconds since the Unix epoch, with local time identified with UTC
(time zones and DST are outside the model; no claim depends on them).
-/

set_option maxRecDepth 20000

namespace GSmartAdd

abbrev Str := List Char

/-- Digit character, JS `\d` = `[0-9]`. -/
def isDigitC (c : Char) : Bool := '0' ≤ c && c ≤ '9'

/-- Whitespace, the ASCII part of JS `\s` (the inputs of interest are ASCII). -/
def isSpaceC (c : Char) : Bool :=
  c = ' ' || c = '\t' || c = '\n' || c = '\r' || c = '\x0b' || c = '\x0c'

/-- Word character, JS `\w` = `[A-Za-z0-9_]`. -/
def isWordC (c : Char) : Bool := c.isAlpha || isDigitC c || c = '_'

/-- Character classes occurring in the source's patterns. -/
inductive CC where
  | digit
  | space
  | commaSpace
  | colon
deriving DecidableEq, Repr

def CC.mem : CC → Char → Bool
  | .digit, c => isDigitC c
  | .space, c => isSpaceC c
  | .commaSpace, c => c = ',' || isSpaceC c
  | .colon, c => c = ':'

/-- Regular-expression abstract syntax, covering exactly the constructs used by
`DATE_PATTERNS`: case-insensitive literals, the classes above, ordered
alternation, greedy bounded/unbounded class repetition, optional parts,
capturing groups, negative lookahead `(?!...)` and word boundary `\b`. -/
inductive Rx where
  | eps
  | str (lit : Str)
  | cc (k : CC)
  | seq (a b : Rx)
  | alt (a b : Rx)
  | opt (a : Rx)
  | repCC (k : CC) (lo hi : Nat)
  | plusCC (k : CC)
  | starCC (k : CC)
  | group (a : Rx)
  | nla (a : Rx)
  | wb

/-- Matcher state: remaining input, the character just before it (for `\b`),
and captured groups so far (left to right; no pattern nests groups). -/
structure MSt where
  rem : Str
  prev : Option Char
  caps : List Str
deriving DecidableEq, Repr

/-- Consume a case-insensitive literal (stored lowercase, as the `i` flag),
returning the rest of the input and the last consumed character. -/
def consumeLitAux : Str → Str → Option Char → Option (Str × Option Char)
  | [], rem, p => some (rem, p)
  | _ :: _, [], _ => none
  | c :: cs, x :: xs, _ => if x.toLower = c then consumeLitAux cs xs (some x) else none

def consumeLit (lit : Str) (st : MSt) : Option MSt :=
  (consumeLitAux lit st.rem st.prev).map fun q => ⟨q.1, q.2, st.caps⟩

/-- Length of the leading run of class characters. -/
def ccRun (k : CC) : Str → Nat
  | [] => 0
  | c :: cs => if k.mem c then ccRun k cs + 1 else 0

/-- Consume `n` characters (assumed available). -/
def MSt.consumeN (st : MSt) (n : Nat) : MSt :=
  { rem := st.rem.drop n
    prev := match (st.rem.take n).getLast? with
            | some c => some c
            | none => st.prev
    caps := st.caps }

/-- Greedy `{lo,hi}` repetition of a class: candidate end states, longest
first, exactly the backtracking order of a JS engine. -/
def repCCm (k : CC) (lo hi : Nat) (st : MSt) : List MSt :=
  if lo ≤ min (ccRun k st.rem) hi then
    (List.range (min (ccRun k st.rem) hi + 1 - lo)).map
      (fun i => st.consumeN (min (ccRun k st.rem) hi - i))
  else []

def isWordO : Option Char → Bool
  | none => false
  | some c => isWordC c

/-- JS `\b`: a word/non-word transition (string ends count as non-word). -/
def wordBoundary (p n : Option Char) : Bool := isWordO p != isWordO n

/-- All ways a regex can match a prefix of the state's remaining input, in the
JS engine's backtracking preference order (greedy, alternation left first).
The head of the list is the match the JS engine produces. -/
def Rx.mtch : Rx → MSt → List MSt
  | .eps, st => [st]
  | .str lit, st =>
    match consumeLit lit st with
    | some st' => [st']
    | none => []
  | .cc k, st =>
    match st.rem with
    | [] => []
    | x :: xs => if k.mem x then [⟨xs, some x, st.caps⟩] else []
  | .seq a b, st => (Rx.mtch a st).flatMap (fun st' => Rx.mtch b st')
  | .alt a b, st => Rx.mtch a st ++ Rx.mtch b st
  | .opt a, st => Rx.mtch a st ++ [st]
  | .repCC k lo hi, st => repCCm k lo hi st
  | .plusCC k, st => repCCm k 1 st.rem.length st
  | .starCC k, st => repCCm k 0 st.rem.length st
  | .group a, st =>
    (Rx.mtch a st).map (fun st' =>
      { st' with caps := st'.caps ++ [st.rem.take (st.rem.length - st'.rem.length)] })
  | .nla a, st => if (Rx.mtch a st).isEmpty then [st] else []
  | .wb, st => if wordBoundary st.prev st.rem.head? then [st] else []

/-- Raw regex match: span and captured groups (like a `RegExpExecArray`). -/
structure RawM where
  start : Nat
  stop : Nat
  caps : List Str
deriving DecidableEq, Repr

def prevAt (s : Str) (i : Nat) : Option Char :=
  if i = 0 then none else (s.take i).getLast?

/-- Attempt a match anchored at position `i` (the JS engine's attempt at one
start position); `none` if the pattern cannot match there. -/
def execAt (r : Rx) (s : Str) (i : Nat) : Option MSt :=
  (r.mtch ⟨s.drop i, prevAt s i, []⟩).head?

/-- First match at or after position `i` (JS `RegExp.exec` with `lastIndex = i`).
Fuel is `s.length + 1 - i`, enough for every start position. -/
def execFromAux (r : Rx) (s : Str) : Nat → Nat → Option RawM
  | _, 0 => none
  | i, fuel + 1 =>
    if i > s.length then none
    else
      match execAt r s i with
      | some st => some ⟨i, s.length - st.rem.length, st.caps⟩
      | none => execFromAux r s (i + 1) fuel

def execFrom (r : Rx) (s : Str) (i : Nat) : Option RawM :=
  execFromAux r s i (s.length + 1 - i)

/-- Repeated `exec` from the previous match's end offset, as the `while` loop
in `findAllMatches`.  Every pattern of the registry only makes non-empty
matches, so the zero-length guard (which stops instead of looping forever as
JS would) is never taken, and the fuel `s.length + 2` is never exhausted. -/
def scanAux (r : Rx) (s : Str) : Nat → Nat → List RawM
  | _, 0 => []
  | i, fuel + 1 =>
    match execFrom r s i with
    | none => []
    | some rm => if i < rm.stop then rm :: scanAux r s rm.stop fuel else [rm]

def scanPattern (r : Rx) (s : Str) : List RawM :=
  scanAux r s 0 (s.length + 2)

/-! Dictionaries and pattern construction. -/

/-- Month dictionary (1-indexed), in the source's insertion order. -/
def MONTH_DICTIONARY : List (Str × Int) :=
  [("january".toList, 1), ("jan".toList, 1), ("february".toList, 2), ("feb".toList, 2),
   ("march".toList, 3), ("mar".toList, 3), ("april".toList, 4), ("apr".toList, 4),
   ("may".toList, 5), ("june".toList, 6), ("jun".toList, 6), ("july".toList, 7),
   ("jul".toList, 7), ("august".toList, 8), ("aug".toList, 8), ("september".toList, 9),
   ("sep".toList, 9), ("sept".toList, 9), ("october".toList, 10), ("oct".toList, 10),
   ("november".toList, 11), ("nov".toList, 11), ("december".toList, 12), ("dec".toList, 12)]

/-- Ordinal word dictionary, in the source's insertion order. -/
def ORDINAL_WORD_DICTIONARY : List (Str × Int) :=
  [("first".toList, 1), ("second".toList, 2), ("third".toList, 3), ("fourth".toList, 4),
   ("fifth".toList, 5), ("sixth".toList, 6), ("seventh".toList, 7), ("eighth".toList, 8),
   ("ninth".toList, 9), ("tenth".toList, 10), ("eleventh".toList, 11), ("twelfth".toList, 12),
   ("thirteenth".toList, 13), ("fourteenth".toList, 14), ("fifteenth".toList, 15),
   ("sixteenth".toList, 16), ("seventeenth".toList, 17), ("eighteenth".toList, 18),
   ("nineteenth".toList, 19), ("twentieth".toList, 20), ("twenty-first".toList, 21),
   ("twenty-second".toList, 22), ("twenty-third".toList, 23), ("twenty-fourth".toList, 24),
   ("twenty-fifth".toList, 25), ("twenty-sixth".toList, 26), ("twenty-seventh".toList, 27),
   ("twenty-eighth".toList, 28), ("twenty-ninth".toList, 29), ("thirtieth".toList, 30),
   ("thirty-first".toList, 31)]

def dictLookup (d : List (Str × Int)) (k : Str) : Option Int :=
  (d.find? (fun p => p.1 == k)).map (·.2)

/-- Alternation keys of `matchAnyPattern`: dictionary keys sorted by length
descending; JS `Array.sort` is stable, matched here by a stable insertion
sort (kernel-reducible, unlike merge sort). -/
def matchAnyKeys (d : List (Str × Int)) : List Str :=
  (d.map Prod.fst).insertionSort (fun a b => b.length ≤ a.length)

/-- Ordered alternation of a non-empty list of branches. -/
def altList : List Rx → Rx
  | [] => Rx.eps
  | [r] => r
  | r :: rs => Rx.alt r (altList rs)

def strAlt (ws : List Str) : Rx := altList (ws.map Rx.str)

def MONTH_RX : Rx := strAlt (matchAnyKeys MONTH_DICTIONARY)

/-- `(?:ORDINAL_WORD_PATTERN|\d{1,2}(?:st|nd|rd|th)?)` -/
def ORD_RX : Rx :=
  Rx.alt (strAlt (matchAnyKeys ORDINAL_WORD_DICTIONARY))
    (Rx.seq (Rx.repCC .digit 1 2)
      (Rx.opt (strAlt ["st".toList, "nd".toList, "rd".toList, "th".toList])))

/-- the lookahead body `\s*(?:am|pm|:\d)` -/
def ALTS_RX : Rx :=
  altList [Rx.str "am".toList, Rx.str "pm".toList,
           Rx.seq (Rx.cc .colon) (Rx.cc .digit)]

def TIME_SUFFIX_RX : Rx := Rx.seq (Rx.starCC .space) ALTS_RX

def seqList : List Rx → Rx
  | [] => Rx.eps
  | [r] => r
  | r :: rs => Rx.seq r (seqList rs)

/-- `\b(w1|w2|...)\b` -/
def wordAltRx (ws : List String) : Rx :=
  seqList [Rx.wb, Rx.group (strAlt (ws.map String.toList)), Rx.wb]

def rxToday : Rx := wordAltRx ["today", "tod"]
def rxTomorrow : Rx := wordAltRx ["tomorrow", "tom"]
/-- `\byesterday\b` (no capture group). -/
def rxYesterday : Rx := seqList [Rx.wb, Rx.str "yesterday".toList, Rx.wb]
def rxSunday : Rx := wordAltRx ["sunday", "sun"]
def rxMonday : Rx := wordAltRx ["monday", "mon"]
def rxTuesday : Rx := wordAltRx ["tuesday", "tues", "tue"]
def rxWednesday : Rx := wordAltRx ["wednesday", "wed"]
def rxThursday : Rx := wordAltRx ["thursday", "thurs", "thur", "thu"]
def rxFriday : Rx := wordAltRx ["friday", "fri"]
def rxSaturday : Rx := wordAltRx ["saturday", "sat"]

/-- `\b(\d{4})-(\d{1,2})-(\d{1,2})\b` -/
def rxIso : Rx :=
  seqList [Rx.wb, Rx.group (Rx.repCC .digit 4 4), Rx.str "-".toList,
           Rx.group (Rx.repCC .digit 1 2), Rx.str "-".toList,
           Rx.group (Rx.repCC .digit 1 2), Rx.wb]

/-- `\b(\d{1,2})\/(\d{1,2})\/(\d{2,4})\b` -/
def rxSlashYear : Rx :=
  seqList [Rx.wb, Rx.group (Rx.repCC .digit 1 2), Rx.str "/".toList,
           Rx.group (Rx.repCC .digit 1 2), Rx.str "/".toList,
           Rx.group (Rx.repCC .digit 2 4), Rx.wb]

/-- `\b(\d{1,2})\/(\d{1,2})\b` -/
def rxShortSlash : Rx :=
  seqList [Rx.wb, Rx.group (Rx.repCC .digit 1 2), Rx.str "/".toList,
           Rx.group (Rx.repCC .digit 1 2), Rx.wb]

/-- `\b(MONTH)\s+(ORD)(?!\s*(?:am|pm|:\d))[,\s]+(\d{2,4})\b` -/
def rxMonthDayYear : Rx :=
  seqList [Rx.wb, Rx.group MONTH_RX, Rx.plusCC .space, Rx.group ORD_RX,
           Rx.nla TIME_SUFFIX_RX, Rx.plusCC .commaSpace,
           Rx.group (Rx.repCC .digit 2 4), Rx.wb]

/-- `\b(ORD)\s+(MONTH)[,\s]+(\d{2,4})\b` -/
def rxDayMonthYear : Rx :=
  seqList [Rx.wb, Rx.group ORD_RX, Rx.plusCC .space, Rx.group MONTH_RX,
           Rx.plusCC .commaSpace, Rx.group (Rx.repCC .digit 2 4), Rx.wb]

/-- `\b(MONTH)\s+(ORD)(?!\s*(?:am|pm|:\d))\b` -/
def rxMonthDay : Rx :=
  seqList [Rx.wb, Rx.group MONTH_RX, Rx.plusCC .space, Rx.group ORD_RX,
           Rx.nla TIME_SUFFIX_RX, Rx.wb]

/-- `\b(ORD)\s+(MONTH)\b` -/
def rxDayMonth : Rx :=
  seqList [Rx.wb, Rx.group ORD_RX, Rx.plusCC .space, Rx.group MONTH_RX, Rx.wb]

/-! Date arithmetic: `Date` values are milliseconds since the epoch. -/

def msPerDay : Int := 86400000

/-- Reference instant: `new Date()`'s timestamp together with the value its
`getFullYear()` returns (`Now.WF` below ties the two together). -/
structure Now where
  ms : Int
  year : Int
deriving DecidableEq, Repr

def isLeap (y : Int) : Bool := (y % 4 = 0 && !(y % 100 = 0)) || y % 400 = 0

/-- Days from 1970-01-01 to `y`-01-01 (proleptic Gregorian, any direction). -/
def daysToYear (y : Int) : Int :=
  365 * (y - 1970) + ((y - 1) / 4 - (y - 1) / 100 + (y - 1) / 400) - 477

/-- Days in the months before 0-indexed month `m0` (expects `0 ≤ m0 < 12`). -/
def cumMonth (leap : Bool) (m0 : Int) : Int :=
  ([0, 31, 59, 90, 120, 151, 181, 212, 243, 273, 304, 334].getD m0.toNat 0 : Int)
    + (if leap && 2 ≤ m0 then 1 else 0)

/-- `new Date(year, m0, d).getTime()`: out-of-range month and day overflow into
adjacent years/months exactly as in JS, and a `year` of 0–99 means 1900+year
(the `Date` constructor's two-digit-year rule). -/
def mkDateMs (year m0 d : Int) : Int :=
  let yq := if 0 ≤ year && year ≤ 99 then year + 1900 else year
  let y := yq + m0 / 12
  let m := m0 % 12
  msPerDay * (daysToYear y + cumMonth (isLeap y) m + (d - 1))

/-- `startOfYearMs y ≤ ms < startOfYearMs (y+1)` is what `getFullYear() = y` means. -/
def startOfYearMs (y : Int) : Int := msPerDay * daysToYear y

/-- The reference instant really lies inside its stated calendar year. -/
def Now.WF (now : Now) : Prop :=
  startOfYearMs now.year ≤ now.ms ∧ now.ms < startOfYearMs (now.year + 1)

instance (now : Now) : Decidable now.WF := by unfold Now.WF; infer_instance

def addDays (ms : Int) (days : Int) : Int := ms + days * msPerDay

/-- JS `getDay()` (weekday, Sunday = 0); the epoch day was a Thursday. -/
def dayOfWeek (ms : Int) : Int := (ms / msPerDay + 4) % 7

/-- nextWeekday, today inclusive. -/
def nextWeekday (now : Now) (targetDay : Int) : Int :=
  let currentDay := dayOfWeek now.ms
  let daysUntil := targetDay - currentDay
  let daysUntil := if daysUntil < 0 then daysUntil + 7 else daysUntil
  addDays now.ms daysUntil

/-- isValidDate: day and month magnitude check. -/
def isValidDate (day month : Int) : Bool :=
  1 ≤ day && day ≤ 31 && 1 ≤ month && month ≤ 12

/-- normalizeMonthDay: smart swap when the nominal month exceeds 12, then the
final range validation (the source's early returns flattened to nested ifs). -/
def normalizeMonthDay (first second : Int) (firstIsMonth : Bool) :
    Option (Int × Int) :=
  let month0 := if firstIsMonth then first else second
  let day0 := if firstIsMonth then second else first
  if 12 < month0 then
    if 1 ≤ day0 && day0 ≤ 12 && month0 ≤ 31 then
      if isValidDate month0 day0 then some (month0, day0) else none
    else none
  else if isValidDate day0 month0 then some (day0, month0) else none

def strToNat (t : Str) : Nat :=
  t.foldl (fun a c => a * 10 + (c.toNat - 48)) 0

/-- stripping the `(?:st|nd|rd|th)$` suffix (input already lowercased). -/
def stripOrdSuffix (t : Str) : Str :=
  let tail2 := t.drop (t.length - 2)
  if 2 ≤ t.length &&
      (tail2 == "st".toList || tail2 == "nd".toList || tail2 == "rd".toList ||
        tail2 == "th".toList) then
    t.take (t.length - 2)
  else t

/-- parseOrdinal: ordinal words via the dictionary, otherwise digits with an
optional ordinal suffix. -/
def parseOrdinal (t : Str) : Int :=
  let lower := t.map Char.toLower
  match dictLookup ORDINAL_WORD_DICTIONARY lower with
  | some n => n
  | none => strToNat (stripOrdSuffix lower)

/-- findMostLikelyADYear: 2-digit years go to the century closest to the
current year (`reduce` starts from the current-century candidate, so ties keep
it); 3+-digit years are unchanged. -/
def findMostLikelyADYear (currentYear : Int) (yearNumber : Int) : Int :=
  if 100 ≤ yearNumber then yearNumber
  else
    let currentCentury := currentYear / 100 * 100
    let c1 := currentCentury + yearNumber
    let c2 := currentCentury - 100 + yearNumber
    if (c2 - currentYear).natAbs < (c1 - currentYear).natAbs then c2 else c1

/-- findYearClosestToRef: last/current/next year candidates for a day/month,
smallest absolute distance to now wins. -/
def findYearClosestToRef (now : Now) (day month : Int) : Int :=
  let year := now.year
  let candidate := mkDateMs year (month - 1) day
  let nextYear := mkDateMs (year + 1) (month - 1) day
  let lastYear := mkDateMs (year - 1) (month - 1) day
  let diffCurrent := (candidate - now.ms).natAbs
  let diffNext := (nextYear - now.ms).natAbs
  let diffLast := (lastYear - now.ms).natAbs
  if diffNext < diffCurrent && diffNext < diffLast then nextYear
  else if diffLast < diffCurrent then lastYear
  else candidate

/-! The pattern registry. -/

def cap (caps : List Str) (i : Nat) : Str := caps.getD i []

def capInt (caps : List Str) (i : Nat) : Int := (strToNat (cap caps i) : Int)

structure PatternEntry where
  rx : Rx
  resolve : Now → List Str → Option Int

/-- ISO resolver: strict validation, no swap. -/
def resolveISO (_now : Now) (caps : List Str) : Option Int :=
  let month := capInt caps 1
  let day := capInt caps 2
  if isValidDate day month then some (mkDateMs (capInt caps 0) (month - 1) day)
  else none

/-- US slash date with year: swap heuristic, then century expansion. -/
def resolveSlashYear (now : Now) (caps : List Str) : Option Int :=
  match normalizeMonthDay (capInt caps 0) (capInt caps 1) true with
  | none => none
  | some (day, month) =>
    let year := findMostLikelyADYear now.year (capInt caps 2)
    some (mkDateMs year (month - 1) day)

/-- Short slash date: swap heuristic, then nearest-year completion. -/
def resolveShortSlash (now : Now) (caps : List Str) : Option Int :=
  match normalizeMonthDay (capInt caps 0) (capInt caps 1) false with
  | none => none
  | some (day, month) => some (findYearClosestToRef now day month)

/-- Month name + day + year. -/
def resolveMonthDayYear (now : Now) (caps : List Str) : Option Int :=
  match dictLookup MONTH_DICTIONARY ((cap caps 0).map Char.toLower) with
  | none => none
  | some month =>
    let day := parseOrdinal (cap caps 1)
    if isValidDate day month then
      some (mkDateMs (findMostLikelyADYear now.year (capInt caps 2)) (month - 1) day)
    else none

/-- Day + month name + year. -/
def resolveDayMonthYear (now : Now) (caps : List Str) : Option Int :=
  match dictLookup MONTH_DICTIONARY ((cap caps 1).map Char.toLower) with
  | none => none
  | some month =>
    let day := parseOrdinal (cap caps 0)
    if isValidDate day month then
      some (mkDateMs (findMostLikelyADYear now.year (capInt caps 2)) (month - 1) day)
    else none

/-- Month name + day (no year): nearest-year completion. -/
def resolveMonthDay (now : Now) (caps : List Str) : Option Int :=
  match dictLookup MONTH_DICTIONARY ((cap caps 0).map Char.toLower) with
  | none => none
  | some month =>
    let day := parseOrdinal (cap caps 1)
    if isValidDate day month then some (findYearClosestToRef now day month)
    else none

/-- Day + month name (no year): nearest-year completion. -/
def resolveDayMonth (now : Now) (caps : List Str) : Option Int :=
  match dictLookup MONTH_DICTIONARY ((cap caps 1).map Char.toLower) with
  | none => none
  | some month =>
    let day := parseOrdinal (cap caps 0)
    if isValidDate day month then some (findYearClosestToRef now day month)
    else none

/-- DATE_PATTERNS: the ordered (recognizer, resolver) registry. -/
def DATE_PATTERNS : List PatternEntry :=
  [ ⟨rxToday, fun now _ => some now.ms⟩,
    ⟨rxTomorrow, fun now _ => some (addDays now.ms 1)⟩,
    ⟨rxYesterday, fun now _ => some (addDays now.ms (-1))⟩,
    ⟨rxSunday, fun now _ => some (nextWeekday now 0)⟩,
    ⟨rxMonday, fun now _ => some (nextWeekday now 1)⟩,
    ⟨rxTuesday, fun now _ => some (nextWeekday now 2)⟩,
    ⟨rxWednesday, fun now _ => some (nextWeekday now 3)⟩,
    ⟨rxThursday, fun now _ => some (nextWeekday now 4)⟩,
    ⟨rxFriday, fun now _ => some (nextWeekday now 5)⟩,
    ⟨rxSaturday, fun now _ => some (nextWeekday now 6)⟩,
    ⟨rxIso, resolveISO⟩,
    ⟨rxSlashYear, resolveSlashYear⟩,
    ⟨rxShortSlash, resolveShortSlash⟩,
    ⟨rxMonthDayYear, resolveMonthDayYear⟩,
    ⟨rxDayMonthYear, resolveDayMonthYear⟩,
    ⟨rxMonthDay, resolveMonthDay⟩,
    ⟨rxDayMonth, resolveDayMonth⟩ ]

/-! The parser pipeline. -/

/-- Accepted candidate: span, raw text and resolved date. -/
structure Match where
  start : Nat
  stop : Nat
  raw : Str
  date : Int
deriving DecidableEq, Repr

/-- The `sort` comparator `a.start - b.start || (b.end - b.start) - (a.end - a.start)`
as an order relation: start ascending, span length descending on ties.  A JS
stable sort with a consistent comparator and a stable insertion sort produce
the same list, so `List.insertionSort matchRel` models `Array.sort`. -/
def matchRel (a b : Match) : Prop :=
  a.start < b.start ∨
    (a.start = b.start ∧ (b.stop : Int) - b.start ≤ (a.stop : Int) - a.start)

instance : DecidableRel matchRel := fun a b => by unfold matchRel; infer_instance

/-- The cursor walk: skip a match starting before the last accepted end. -/
def overlapWalk : List Match → Int → List Match
  | [], _ => []
  | m :: rest, lastEnd =>
    if (m.start : Int) < lastEnd then overlapWalk rest lastEnd
    else m :: overlapWalk rest (m.stop : Int)

/-- filterOverlappingMatches: stable sort (start asc, longer first), then the
greedy cursor walk starting before the text. -/
def filterOverlappingMatches (cands : List Match) : List Match :=
  if cands.length ≤ 1 then cands
  else overlapWalk (cands.insertionSort matchRel) (-1)

/-- findAllMatches: run every pattern, discard candidates whose resolver
rejects (`null`), record span, raw text and resolved date. -/
def findAllMatches (now : Now) (text : Str) : List Match :=
  DATE_PATTERNS.flatMap fun p =>
    (scanPattern p.rx text).filterMap fun rm =>
      (p.resolve now rm.caps).map fun d =>
        ⟨rm.start, rm.stop, (text.drop rm.start).take (rm.stop - rm.start), d⟩

inductive TokType where
  | text
  | date
deriving DecidableEq, Repr

structure Token where
  type : TokType
  raw : Str
  start : Nat
  stop : Nat
deriving DecidableEq, Repr

/-- buildTokens: at most three segments around the active match; with no
match, the whole text is one text token (empty text: no tokens). -/
def buildTokens (text : Str) (activeMatch : Option Match) : List Token :=
  match activeMatch with
  | none => if text = [] then [] else [⟨.text, text, 0, text.length⟩]
  | some m =>
    (if 0 < m.start then [⟨.text, text.take m.start, 0, m.start⟩] else []) ++
      [⟨.date, m.raw, m.start, m.stop⟩] ++
      (if m.stop < text.length then [⟨.text, text.drop m.stop, m.stop, text.length⟩] else [])

/-- JS `String.trim` (over the model's whitespace set). -/
def trimStr (t : Str) : Str :=
  ((t.dropWhile isSpaceC).reverse.dropWhile isSpaceC).reverse

/-- JS `Array.join(' ')`. -/
def joinSpace : List Str → Str
  | [] => []
  | [x] => x
  | x :: xs => x ++ ' ' :: joinSpace xs

structure ParseResult where
  tokens : List Token
  event : Option Int
  cleanTitle : Str
deriving DecidableEq, Repr

/-- InputParser.parse: find matches, drop overlaps, keep only the last match
as the date anchor, tokenize around it, join the text tokens to a clean title. -/
def parse (now : Now) (text : Str) : ParseResult :=
  let found := findAllMatches now text
  let filtered := filterOverlappingMatches found
  let lastMatch : Option Match := filtered.getLast?
  let tokens := buildTokens text lastMatch
  let event : Option Int := lastMatch.map (·.date)
  let cleanTitle :=
    joinSpace ((((tokens.filter (fun t => t.type = .text)).map
      (fun t => trimStr t.raw)).filter (fun s => 0 < s.length)))
  ⟨tokens, event, cleanTitle⟩

/-! Engine soundness: every reported match consumes a prefix of the remaining
input, so match spans are well-formed slices of the scanned text. -/

theorem consumeLitAux_suffix {lit rem rem' : Str} {p p' : Option Char}
    (h : consumeLitAux lit rem p = some (rem', p')) : rem' <:+ rem := by
  induction lit generalizing rem p with
  | nil =>
    simp only [consumeLitAux, Option.some.injEq, Prod.mk.injEq] at h
    exact h.1 ▸ List.suffix_refl _
  | cons c cs ih =>
    cases rem with
    | nil => exact absurd h (by simp [consumeLitAux])
    | cons x xs =>
      simp only [consumeLitAux] at h
      split at h
      · exact (ih h).trans (List.suffix_cons x xs)
      · exact absurd h (by simp)

theorem consumeLit_suffix {lit : Str} {st st' : MSt}
    (h : consumeLit lit st = some st') : st'.rem <:+ st.rem ∧ st'.caps = st.caps := by
  unfold consumeLit at h
  simp only [Option.map_eq_some'] at h
  obtain ⟨⟨r2, p2⟩, hq, rfl⟩ := h
  exact ⟨consumeLitAux_suffix hq, rfl⟩

theorem repCCm_spec {k : CC} {lo hi : Nat} {st st' : MSt}
    (h : st' ∈ repCCm k lo hi st) : st'.rem <:+ st.rem ∧ st'.caps = st.caps := by
  unfold repCCm at h
  split at h
  · simp only [List.mem_map] at h
    obtain ⟨i, _, rfl⟩ := h
    exact ⟨List.drop_suffix _ _, rfl⟩
  · exact absurd h (by simp)

theorem mtch_suffix (r : Rx) : ∀ {st st' : MSt}, st' ∈ r.mtch st → st'.rem <:+ st.rem := by
  induction r with
  | eps =>
    intro st st' h
    simp only [Rx.mtch, List.mem_singleton] at h
    exact h ▸ List.suffix_refl _
  | str lit =>
    intro st st' h
    rw [Rx.mtch] at h
    cases hc : consumeLit lit st with
    | none => rw [hc] at h; exact absurd h (by simp)
    | some st1 =>
      rw [hc] at h
      simp only [List.mem_singleton] at h
      exact h ▸ (consumeLit_suffix hc).1
  | cc k =>
    intro st st' h
    rw [Rx.mtch] at h
    cases hrem : st.rem with
    | nil => simp only [hrem] at h; exact absurd h (by simp)
    | cons x xs =>
      simp only [hrem] at h
      by_cases hk : k.mem x = true
      · simp only [hk, if_pos, List.mem_singleton] at h
        subst h
        exact hrem ▸ List.suffix_cons x xs
      · simp [hk] at h
  | seq a b iha ihb =>
    intro st st' h
    simp only [Rx.mtch, List.mem_flatMap] at h
    obtain ⟨st1, h1, h2⟩ := h
    exact (ihb h2).trans (iha h1)
  | alt a b iha ihb =>
    intro st st' h
    simp only [Rx.mtch, List.mem_append] at h
    rcases h with h | h
    · exact iha h
    · exact ihb h
  | opt a iha =>
    intro st st' h
    simp only [Rx.mtch, List.mem_append, List.mem_singleton] at h
    rcases h with h | h
    · exact iha h
    · exact h ▸ List.suffix_refl _
  | repCC k lo hi =>
    intro st st' h
    exact (repCCm_spec (by simpa [Rx.mtch] using h)).1
  | plusCC k =>
    intro st st' h
    exact (repCCm_spec (by simpa [Rx.mtch] using h)).1
  | starCC k =>
    intro st st' h
    exact (repCCm_spec (by simpa [Rx.mtch] using h)).1
  | group a iha =>
    intro st st' h
    simp only [Rx.mtch, List.mem_map] at h
    obtain ⟨st1, h1, rfl⟩ := h
    exact show st1.rem <:+ st.rem from iha h1
  | nla a _ =>
    intro st st' h
    rw [Rx.mtch] at h
    split at h
    · simp only [List.mem_singleton] at h
      exact h ▸ List.suffix_refl _
    · exact absurd h (by simp)
  | wb =>
    intro st st' h
    rw [Rx.mtch] at h
    split at h
    · simp only [List.mem_singleton] at h
      exact h ▸ List.suffix_refl _
    · exact absurd h (by simp)

theorem execAt_spec {r : Rx} {s : Str} {i : Nat} {st : MSt}
    (h : execAt r s i = some st) :
    st.rem <:+ s ∧ st.rem.length ≤ s.length - i := by
  unfold execAt at h
  have hmem : st ∈ Rx.mtch r ⟨s.drop i, prevAt s i, []⟩ :=
    List.mem_of_mem_head? (Option.mem_def.mpr h)
  have hsuf : st.rem <:+ s.drop i := mtch_suffix r hmem
  refine ⟨hsuf.trans (List.drop_suffix i s), ?_⟩
  have := hsuf.length_le
  simpa using this

theorem execFromAux_spec {r : Rx} {s : Str} :
    ∀ {fuel i : Nat} {rm : RawM}, execFromAux r s i fuel = some rm →
      rm.start ≤ rm.stop ∧ rm.stop ≤ s.length ∧
        ∃ st, execAt r s rm.start = some st ∧
          rm.stop = s.length - st.rem.length ∧ rm.caps = st.caps := by
  intro fuel
  induction fuel with
  | zero => intro i rm h; exact absurd h (by simp [execFromAux])
  | succ n ih =>
    intro i rm h
    rw [execFromAux] at h
    split at h
    · exact absurd h (by simp)
    · rename_i hlen
      cases hx : execAt r s i with
      | none => rw [hx] at h; exact ih h
      | some st =>
        rw [hx] at h
        simp only [Option.some.injEq] at h
        subst h
        obtain ⟨_, h2⟩ := execAt_spec hx
        refine ⟨?_, ?_, st, hx, rfl, rfl⟩ <;> dsimp only <;> omega

theorem scanAux_spec {r : Rx} {s : Str} :
    ∀ {fuel i : Nat} {rm : RawM}, rm ∈ scanAux r s i fuel →
      rm.start ≤ rm.stop ∧ rm.stop ≤ s.length ∧
        ∃ st, execAt r s rm.start = some st ∧
          rm.stop = s.length - st.rem.length ∧ rm.caps = st.caps := by
  intro fuel
  induction fuel with
  | zero => intro i rm h; exact absurd h (by simp [scanAux])
  | succ n ih =>
    intro i rm h
    rw [scanAux] at h
    cases hx : execFrom r s i with
    | none => simp only [hx] at h; exact absurd h (by simp)
    | some rm0 =>
      simp only [hx] at h
      split at h
      · rcases List.mem_cons.mp h with rfl | h
        · exact execFromAux_spec hx
        · exact ih h
      · simp only [List.mem_singleton] at h
        exact h ▸ execFromAux_spec hx

theorem scanPattern_spec {r : Rx} {s : Str} {rm : RawM} (h : rm ∈ scanPattern r s) :
    rm.start ≤ rm.stop ∧ rm.stop ≤ s.length ∧
      ∃ st, execAt r s rm.start = some st ∧
        rm.stop = s.length - st.rem.length ∧ rm.caps = st.caps :=
  scanAux_spec h

/-- A well-formed accepted candidate: an in-range span whose raw text is the
corresponding slice of the scanned text. -/
def Match.WF (s : Str) (m : Match) : Prop :=
  m.start ≤ m.stop ∧ m.stop ≤ s.length ∧
    m.raw = (s.drop m.start).take (m.stop - m.start)

theorem findAllMatches_wf {now : Now} {s : Str} {m : Match}
    (h : m ∈ findAllMatches now s) : m.WF s := by
  unfold findAllMatches at h
  simp only [List.mem_flatMap, List.mem_filterMap, Option.map_eq_some'] at h
  obtain ⟨p, _, rm, hrm, d, _, rfl⟩ := h
  obtain ⟨h1, h2, _⟩ := scanPattern_spec hrm
  exact ⟨h1, h2, rfl⟩

theorem overlapWalk_sublist : ∀ (l : List Match) (c : Int), List.Sublist (overlapWalk l c) l := by
  intro l
  induction l with
  | nil => intro c; simp [overlapWalk]
  | cons m rest ih =>
    intro c
    rw [overlapWalk]
    split
    · exact (ih _).cons _
    · exact (ih _).cons₂ _

theorem filterOverlappingMatches_mem {l : List Match} {m : Match}
    (h : m ∈ filterOverlappingMatches l) : m ∈ l := by
  unfold filterOverlappingMatches at h
  split at h
  · exact h
  · exact (List.perm_insertionSort matchRel l).subset ((overlapWalk_sublist _ _).subset h)

/-- Contiguity of a token list: the first token starts at the given offset,
each token starts where the previous one stopped, and the last one stops at
the given end (an empty list needs the offsets to agree). -/
def chainFrom : Nat → List Token → Nat → Prop
  | i, [], n => i = n
  | i, t :: ts, n => t.start = i ∧ chainFrom t.stop ts n

theorem take_slice_drop {s : Str} {a b : Nat} (h1 : a ≤ b) (_h2 : b ≤ s.length) :
    s.take a ++ ((s.drop a).take (b - a) ++ s.drop b) = s := by
  have hdrop : s.drop b = (s.drop a).drop (b - a) := by
    rw [List.drop_drop]
    congr 1
    omega
  rw [hdrop, List.take_append_drop, List.take_append_drop]

/-- No pattern matches inside the empty string (every recognizer begins with a
consuming construct behind `\b`), so the empty input yields no candidates. -/
theorem findAllMatches_nil (now : Now) : findAllMatches now [] = [] := rfl

theorem parse_tokens_def (now : Now) (s : Str) :
    (parse now s).tokens =
      buildTokens s (filterOverlappingMatches (findAllMatches now s)).getLast? := rfl

/-- C1: the tokens of `parse` form a lossless contiguous partition of the
input: first token at offset 0, adjacent end/start offsets agree, last token
ends at the input length, the concatenated raw texts rebuild the input, and
the empty input yields no tokens. -/
theorem c1_tokens_lossless_partition (now : Now) (s : Str) :
    (((parse now s).tokens.map Token.raw).flatten = s) ∧
      chainFrom 0 (parse now s).tokens s.length ∧
      (s = [] → (parse now s).tokens = []) := by
  rw [parse_tokens_def]
  cases hlast : (filterOverlappingMatches (findAllMatches now s)).getLast? with
  | none =>
    by_cases hs : s = []
    · subst hs
      exact ⟨rfl, rfl, fun _ => rfl⟩
    · refine ⟨?_, ?_, fun h => absurd h hs⟩
      · simp [buildTokens, hs]
      · simp [buildTokens, hs, chainFrom]
  | some m =>
    have hmem : m ∈ findAllMatches now s :=
      filterOverlappingMatches_mem (List.mem_of_mem_getLast? hlast)
    obtain ⟨h1, h2, hraw⟩ := findAllMatches_wf hmem
    have hs : s ≠ [] := by
      intro hnil
      rw [hnil, findAllMatches_nil] at hmem
      exact absurd hmem (by simp)
    refine ⟨?_, ?_, fun h => absurd h hs⟩
    · rw [buildTokens]
      by_cases hpre : 0 < m.start <;> by_cases hpost : m.stop < s.length <;>
        simp only [hpre, hpost, if_pos, if_neg, if_true, if_false] <;>
        simp only [List.map_append, List.map_cons, List.map_nil, List.flatten_append,
          List.flatten_cons, List.flatten_nil, List.append_nil, List.nil_append] <;>
        rw [hraw]
      · rw [List.append_assoc]
        exact take_slice_drop h1 h2
      · have hstop : m.stop = s.length := by omega
        have : s.drop m.stop = [] := by rw [hstop, List.drop_length]
        calc s.take m.start ++ (s.drop m.start).take (m.stop - m.start)
            = s.take m.start ++ ((s.drop m.start).take (m.stop - m.start) ++ s.drop m.stop) := by
              rw [this, List.append_nil]
          _ = s := take_slice_drop h1 h2
      · have hstart : m.start = 0 := by omega
        calc (s.drop m.start).take (m.stop - m.start) ++ s.drop m.stop
            = s.take m.start ++ ((s.drop m.start).take (m.stop - m.start) ++ s.drop m.stop) := by
              rw [hstart, List.take_zero, List.nil_append]
          _ = s := take_slice_drop h1 h2
      · have hstart : m.start = 0 := by omega
        have hstop : m.stop = s.length := by omega
        have hd : s.drop m.stop = [] := by rw [hstop, List.drop_length]
        calc (s.drop m.start).take (m.stop - m.start)
            = s.take m.start ++ ((s.drop m.start).take (m.stop - m.start) ++ s.drop m.stop) := by
              rw [hstart, hd, List.take_zero, List.nil_append, List.append_nil]
          _ = s := take_slice_drop h1 h2
    · rw [buildTokens]
      by_cases hpre : 0 < m.start <;> by_cases hpost : m.stop < s.length <;>
        simp only [hpre, hpost, if_pos, if_neg, if_true, if_false, List.nil_append,
          List.append_nil, List.cons_append, List.singleton_append] <;>
        simp [chainFrom] <;> omega

/-! Overlap resolution: sortedness, disjointness and longest-match lemmas. -/

instance : IsTotal Match matchRel :=
  ⟨fun a b => by unfold matchRel; omega⟩

instance : IsTrans Match matchRel :=
  ⟨fun a b c hab hbc => by unfold matchRel at hab hbc ⊢; omega⟩

theorem filterOverlappingMatches_sorted (l : List Match) :
    List.Pairwise matchRel (filterOverlappingMatches l) := by
  unfold filterOverlappingMatches
  split
  · rename_i hlen
    match l with
    | [] => simp
    | [a] => simp [matchRel]
    | a :: b :: t => simp at hlen
  · exact List.Pairwise.sublist (overlapWalk_sublist _ _) (List.sorted_insertionSort matchRel l)

theorem pairwise_getLast_max {l : List Match} {m : Match}
    (hp : List.Pairwise matchRel l) (hl : l.getLast? = some m) :
    ∀ m' ∈ l, m'.start ≤ m.start := by
  induction l with
  | nil => simp at hl
  | cons a t ih =>
    cases t with
    | nil =>
      simp only [List.getLast?_singleton, Option.some.injEq] at hl
      subst hl
      intro m' hm'
      simp only [List.mem_singleton] at hm'
      exact hm' ▸ le_refl _
    | cons b t' =>
      rw [List.getLast?_cons_cons] at hl
      have hmem : m ∈ b :: t' := List.mem_of_mem_getLast? hl
      intro m' hm'
      rcases List.mem_cons.mp hm' with rfl | hm'
      · have hr := (List.pairwise_cons.mp hp).1 m hmem
        unfold matchRel at hr
        omega
      · exact ih (List.pairwise_cons.mp hp).2 hl m' hm'

theorem overlapWalk_start_ge {l : List Match} (hwf : ∀ x ∈ l, x.start ≤ x.stop) :
    ∀ {c : Int} {m : Match}, m ∈ overlapWalk l c → c ≤ (m.start : Int) := by
  induction l with
  | nil => intro c m h; simp [overlapWalk] at h
  | cons a t ih =>
    intro c m h
    have hwt : ∀ x ∈ t, x.start ≤ x.stop := fun x hx => hwf x (List.mem_cons_of_mem _ hx)
    rw [overlapWalk] at h
    split at h
    · exact ih hwt h
    · rename_i hc
      rcases List.mem_cons.mp h with rfl | h
      · omega
      · have h1 := ih hwt h
        have h2 := hwf a (List.mem_cons_self a t)
        omega

theorem overlapWalk_disjoint {l : List Match} (hwf : ∀ x ∈ l, x.start ≤ x.stop) :
    ∀ c : Int, List.Pairwise (fun a b => a.stop ≤ b.start) (overlapWalk l c) := by
  induction l with
  | nil => intro c; simp [overlapWalk]
  | cons a t ih =>
    intro c
    have hwt : ∀ x ∈ t, x.start ≤ x.stop := fun x hx => hwf x (List.mem_cons_of_mem _ hx)
    rw [overlapWalk]
    split
    · exact ih hwt c
    · refine List.pairwise_cons.mpr ⟨fun b hb => ?_, ih hwt _⟩
      have := overlapWalk_start_ge hwt hb
      exact_mod_cast this

theorem overlapWalk_longest {l : List Match}
    (hs : List.Pairwise matchRel l) (hwf : ∀ x ∈ l, x.start ≤ x.stop) :
    ∀ {c : Int} {m m' : Match}, m ∈ overlapWalk l c → m' ∈ l → m'.start = m.start →
      (m'.stop : Int) - m'.start ≤ (m.stop : Int) - m.start := by
  induction l with
  | nil => intro c m m' h; simp [overlapWalk] at h
  | cons a t ih =>
    intro c m m' hm hm' heq
    have hwt : ∀ x ∈ t, x.start ≤ x.stop := fun x hx => hwf x (List.mem_cons_of_mem _ hx)
    have hpt := (List.pairwise_cons.mp hs).2
    rw [overlapWalk] at hm
    split at hm
    · rename_i hlt
      rcases List.mem_cons.mp hm' with rfl | hm'
      · have hge := overlapWalk_start_ge hwt hm
        omega
      · exact ih hpt hwt hm hm' heq
    · rcases List.mem_cons.mp hm with rfl | hm
      · rcases List.mem_cons.mp hm' with rfl | hm'
        · omega
        · have hr := (List.pairwise_cons.mp hs).1 m' hm'
          unfold matchRel at hr
          omega
      · rcases List.mem_cons.mp hm' with rfl | hm'
        · have hge := overlapWalk_start_ge hwt hm
          have hwm : m.start ≤ m.stop := hwt m ((overlapWalk_sublist t _).subset hm)
          omega
        · exact ih hpt hwt hm hm' heq

/-- C3: the overlap resolver (stable sort by start ascending, then span length
descending, then the greedy cursor walk from before the text) yields a
mutually disjoint, position-ordered subset in which any candidate sharing a
kept candidate's start offset has no longer span; on `jan 27 2025` the full
3-component span `[0,11)` survives rather than `jan 27`. -/
theorem c3_overlap_resolver (l : List Match) (hwf : ∀ x ∈ l, x.start ≤ x.stop) :
    List.Pairwise (fun a b => a.stop ≤ b.start) (filterOverlappingMatches l) ∧
      (∀ m ∈ filterOverlappingMatches l, ∀ m' ∈ l, m'.start = m.start →
        (m'.stop : Int) - m'.start ≤ (m.stop : Int) - m.start) ∧
      ∀ now : Now,
        (filterOverlappingMatches (findAllMatches now ("jan 27 2025".toList))).map
          (fun m => (m.start, m.stop)) = [(0, 11)] := by
  refine ⟨?_, ?_, fun now => rfl⟩
  · unfold filterOverlappingMatches
    split
    · rename_i hlen
      match l with
      | [] => simp
      | [a] => simp
      | a :: b :: t => simp at hlen
    · have hwf' : ∀ x ∈ l.insertionSort matchRel, x.start ≤ x.stop := fun x hx =>
        hwf x ((List.perm_insertionSort matchRel l).subset hx)
      exact overlapWalk_disjoint hwf' _
  · intro m hm m' hm' heq
    unfold filterOverlappingMatches at hm
    split at hm
    · rename_i hlen
      match l, hm, hm' with
      | [a], hm, hm' =>
        simp only [List.mem_singleton] at hm hm'
        subst hm; subst hm'
        omega
    · have hwf' : ∀ x ∈ l.insertionSort matchRel, x.start ≤ x.stop := fun x hx =>
        hwf x ((List.perm_insertionSort matchRel l).subset hx)
      exact overlapWalk_longest (List.sorted_insertionSort matchRel l) hwf' hm
        (((List.perm_insertionSort matchRel l).mem_iff).mpr hm') heq

theorem parse_event_def (now : Now) (s : Str) :
    (parse now s).event =
      (filterOverlappingMatches (findAllMatches now s)).getLast?.map (·.date) := rfl

/-- C2: the token list holds zero or exactly one `date` token; when the
filtered candidate set is non-empty the single date token's span is that of
the last filtered candidate, which has the greatest start offset among all
survivors and is the sole source of the event data. -/
theorem c2_single_date_anchor (now : Now) (s : Str) :
    ((parse now s).tokens.filter (fun t => t.type = TokType.date)).length ≤ 1 ∧
      (filterOverlappingMatches (findAllMatches now s) = [] →
        (parse now s).tokens.filter (fun t => t.type = TokType.date) = []) ∧
      ∀ m, (filterOverlappingMatches (findAllMatches now s)).getLast? = some m →
        ((parse now s).tokens.filter (fun t => t.type = TokType.date)
            = [⟨TokType.date, m.raw, m.start, m.stop⟩] ∧
          (∀ m' ∈ filterOverlappingMatches (findAllMatches now s), m'.start ≤ m.start) ∧
          (parse now s).event = some m.date) := by
  rw [parse_tokens_def, parse_event_def]
  cases hlast : (filterOverlappingMatches (findAllMatches now s)).getLast? with
  | none =>
    refine ⟨?_, fun _ => ?_, fun m hm => by simp at hm⟩ <;>
      by_cases hs : s = [] <;> simp [buildTokens, hs]
  | some m =>
    have hfilter : (buildTokens s (some m)).filter (fun t => t.type = TokType.date)
        = [⟨TokType.date, m.raw, m.start, m.stop⟩] := by
      rw [buildTokens]
      by_cases hpre : 0 < m.start <;> by_cases hpost : m.stop < s.length <;>
        simp [hpre, hpost, List.filter]
    refine ⟨by rw [hfilter]; exact le_refl 1, fun h0 => ?_, fun m1 hm1 => ?_⟩
    · rw [h0] at hlast
      simp at hlast
    · simp only [Option.some.injEq] at hm1
      subst hm1
      exact ⟨hfilter,
        pairwise_getLast_max (filterOverlappingMatches_sorted _) hlast,
        by simp⟩

/-! Substring containment (JS `String.includes`), for the clean-title claims. -/

def containsSub (hay needle : Str) : Bool :=
  match hay with
  | [] => needle.isEmpty
  | _ :: t => needle.isPrefixOf hay || containsSub t needle

/-- Splitting into chunks at whitespace characters (chunks may be empty). -/
def splitWs (t : Str) : List Str :=
  t.foldr (fun c acc =>
    if isSpaceC c then [] :: acc
    else
      match acc with
      | [] => [[c]]
      | w :: ws => (c :: w) :: ws) []

/-- Modelled from the spec: the "trimmed, whitespace-normalized original text"
of §7 — maximal whitespace runs collapsed to one space and ends trimmed.
(Only used to state claims about the spec's wording; the parser itself is
`parse` above.) -/
def normalizeWsSpec (t : Str) : Str :=
  joinSpace ((splitWs t).filter (fun w => ¬w.isEmpty))


/-! Date arithmetic facts for nearest-year completion (C10). -/

theorem daysToYear_succ (y : Int) :
    daysToYear (y + 1) - daysToYear y = 365 + (if isLeap y then 1 else 0) := by
  simp only [daysToYear, isLeap]
  split_ifs with h
  · simp only [Bool.or_eq_true, Bool.and_eq_true, decide_eq_true_eq, Bool.not_eq_true',
      decide_eq_false_iff_not] at h
    omega
  · simp only [Bool.or_eq_true, Bool.and_eq_true, decide_eq_true_eq, Bool.not_eq_true',
      decide_eq_false_iff_not, not_or] at h
    omega

theorem cumMonth_diff (l1 l2 : Bool) (m0 : Int) :
    cumMonth l1 m0 - cumMonth l2 m0 =
      (if l1 && 2 ≤ m0 then 1 else 0) - (if l2 && 2 ≤ m0 then 1 else 0) := by
  simp only [cumMonth]
  split_ifs <;> omega

theorem cumMonth_bounds (leap : Bool) {m0 : Int} (h0 : 0 ≤ m0) (h1 : m0 ≤ 11) :
    0 ≤ cumMonth leap m0 ∧ cumMonth leap m0 ≤ 334 + (if leap then 1 else 0) := by
  interval_cases m0 <;> cases leap <;> simp [cumMonth]

theorem mkDateMs_eq {y m0 d : Int} (hy : 100 ≤ y) (h0 : 0 ≤ m0) (h1 : m0 ≤ 11) :
    mkDateMs y m0 d = msPerDay * (daysToYear y + cumMonth (isLeap y) m0 + (d - 1)) := by
  simp only [mkDateMs]
  have hq : ¬((0 ≤ y && y ≤ 99) = true) := by
    simp only [Bool.and_eq_true, decide_eq_true_eq]
    omega
  rw [if_neg hq]
  have h12 : m0 / 12 = 0 := by omega
  have h13 : m0 % 12 = m0 := by omega
  rw [h12, h13, add_zero]

theorem startOfYear_succ (y : Int) :
    startOfYearMs (y + 1) - startOfYearMs y = msPerDay * (365 + (if isLeap y then 1 else 0)) := by
  simp only [startOfYearMs]
  rw [← mul_sub, daysToYear_succ]

theorem mkDateMs_in_year {y m0 d : Int} (hy : 100 ≤ y) (h0 : 0 ≤ m0) (h1 : m0 ≤ 11)
    (hd1 : 1 ≤ d) (hd2 : d ≤ 31) :
    startOfYearMs y ≤ mkDateMs y m0 d ∧ mkDateMs y m0 d < startOfYearMs (y + 1) := by
  rw [mkDateMs_eq hy h0 h1]
  have hb := cumMonth_bounds (isLeap y) h0 h1
  have hs := startOfYear_succ y
  simp only [startOfYearMs] at *
  simp only [msPerDay] at *
  split_ifs at hb hs <;> omega

theorem mkDateMs_gap {y m0 d : Int} (hy : 100 ≤ y) (h0 : 0 ≤ m0) (h1 : m0 ≤ 11) :
    msPerDay * 365 ≤ mkDateMs (y + 1) m0 d - mkDateMs y m0 d ∧
      mkDateMs (y + 1) m0 d - mkDateMs y m0 d ≤ msPerDay * 366 := by
  rw [mkDateMs_eq (by omega) h0 h1, mkDateMs_eq hy h0 h1]
  have hd := daysToYear_succ y
  have hc := cumMonth_diff (isLeap (y + 1)) (isLeap y) m0
  rcases Bool.eq_false_or_eq_true (isLeap y) with hly | hly <;>
    rcases Bool.eq_false_or_eq_true (isLeap (y + 1)) with hly1 | hly1 <;>
    by_cases hm : 2 ≤ m0 <;>
    simp only [hly, hly1] at hd hc ⊢ <;>
    simp [hm] at hd hc <;>
    simp only [msPerDay] <;>
    omega

/-- With real date arithmetic a tie between the next-year and last-year
candidates forces the current-year candidate to be strictly closer: the
reference instant would have to sit midway through a two-year window, at most
half a day away from the current-year candidate. -/
theorem tie_next_last {now : Now} {day month : Int} (hwf : now.WF) (hy : 101 ≤ now.year)
    (hd1 : 1 ≤ day) (hd2 : day ≤ 31) (hm1 : 1 ≤ month) (hm2 : month ≤ 12)
    (heq : (mkDateMs (now.year + 1) (month - 1) day - now.ms).natAbs
         = (mkDateMs (now.year - 1) (month - 1) day - now.ms).natAbs) :
    (mkDateMs now.year (month - 1) day - now.ms).natAbs
      < (mkDateMs (now.year + 1) (month - 1) day - now.ms).natAbs := by
  have hin := @mkDateMs_in_year now.year (month - 1) day
    (by omega) (by omega) (by omega) hd1 hd2
  have hgN := @mkDateMs_gap now.year (month - 1) day
    (by omega) (by omega) (by omega)
  have hgL := @mkDateMs_gap (now.year - 1) (month - 1) day
    (by omega) (by omega) (by omega)
  have hyl := startOfYear_succ now.year
  have hwf1 := hwf.1
  have hwf2 := hwf.2
  have hfix : now.year - 1 + 1 = now.year := by omega
  rw [hfix] at hgL
  simp only [msPerDay] at hgN hgL hyl
  split_ifs at hyl <;> omega

/-- C10: nearest-year completion builds exactly the three candidates with the
previous, current and next reference year, returns one of minimal absolute
distance to the reference instant, prefers the current year on any tie it is
part of, and prefers the next year over the previous year when the next year
is no farther (the exact next/last tie being impossible, `tie_next_last`).
The reference year is kept above 100 to stay outside the JS `Date`
constructor's two-digit-year regime. -/
theorem c10_nearest_year_completion (now : Now) (day month : Int) (hwf : now.WF)
    (hy : 101 ≤ now.year) (hd1 : 1 ≤ day) (hd2 : day ≤ 31)
    (hm1 : 1 ≤ month) (hm2 : month ≤ 12) :
    (findYearClosestToRef now day month = mkDateMs now.year (month - 1) day ∨
      findYearClosestToRef now day month = mkDateMs (now.year + 1) (month - 1) day ∨
      findYearClosestToRef now day month = mkDateMs (now.year - 1) (month - 1) day) ∧
    (findYearClosestToRef now day month - now.ms).natAbs
        ≤ (mkDateMs now.year (month - 1) day - now.ms).natAbs ∧
    (findYearClosestToRef now day month - now.ms).natAbs
        ≤ (mkDateMs (now.year + 1) (month - 1) day - now.ms).natAbs ∧
    (findYearClosestToRef now day month - now.ms).natAbs
        ≤ (mkDateMs (now.year - 1) (month - 1) day - now.ms).natAbs ∧
    ((mkDateMs now.year (month - 1) day - now.ms).natAbs
          ≤ (mkDateMs (now.year + 1) (month - 1) day - now.ms).natAbs ∧
        (mkDateMs now.year (month - 1) day - now.ms).natAbs
          ≤ (mkDateMs (now.year - 1) (month - 1) day - now.ms).natAbs →
      findYearClosestToRef now day month = mkDateMs now.year (month - 1) day) ∧
    ((mkDateMs (now.year + 1) (month - 1) day - now.ms).natAbs
          < (mkDateMs now.year (month - 1) day - now.ms).natAbs ∧
        (mkDateMs (now.year + 1) (month - 1) day - now.ms).natAbs
          ≤ (mkDateMs (now.year - 1) (month - 1) day - now.ms).natAbs →
      findYearClosestToRef now day month = mkDateMs (now.year + 1) (month - 1) day) ∧
    ((mkDateMs (now.year - 1) (month - 1) day - now.ms).natAbs
          < (mkDateMs now.year (month - 1) day - now.ms).natAbs ∧
        (mkDateMs (now.year - 1) (month - 1) day - now.ms).natAbs
          < (mkDateMs (now.year + 1) (month - 1) day - now.ms).natAbs →
      findYearClosestToRef now day month = mkDateMs (now.year - 1) (month - 1) day) := by
  have key := tie_next_last hwf hy hd1 hd2 hm1 hm2
  simp only [findYearClosestToRef]
  set c := mkDateMs now.year (month - 1) day with hc
  set n := mkDateMs (now.year + 1) (month - 1) day with hn
  set l := mkDateMs (now.year - 1) (month - 1) day with hl
  set dc := (c - now.ms).natAbs with hdc
  set dn := (n - now.ms).natAbs with hdn
  set dl := (l - now.ms).natAbs with hdl
  by_cases h1 : dn < dc ∧ dn < dl
  · rw [if_pos (by simp only [Bool.and_eq_true, decide_eq_true_eq]; exact h1)]
    refine ⟨Or.inr (Or.inl rfl), by omega, by omega, by omega, by omega, fun _ => rfl, by omega⟩
  · rw [if_neg (by simp only [Bool.and_eq_true, decide_eq_true_eq]; exact h1)]
    rw [not_and_or, not_lt, not_lt] at h1
    by_cases h2 : dl < dc
    · rw [if_pos h2]
      refine ⟨Or.inr (Or.inr rfl), by omega, by omega, by omega, by omega, fun h3 => ?_,
        fun _ => rfl⟩
      by_cases h4 : dn = dl
      · have := key h4
        omega
      · omega
    · rw [if_neg h2]
      refine ⟨Or.inl rfl, by omega, by omega, by omega, fun _ => rfl, by omega, by omega⟩


/-! Resolver rejection behavior (C8). -/

/-- Modelled from the spec: "an internally inconsistent calendar date
(components that do not form a real calendar date, e.g. 2025-13-01)".  A
year/month/day triple denotes a real calendar date when the month is 1-12 and
the day fits that month's length.  Used only to state the claim; the code has
no such check. -/
def daysInMonth (y m : Int) : Int :=
  if m = 2 then 28 + (if isLeap y then 1 else 0)
  else if m = 4 ∨ m = 6 ∨ m = 9 ∨ m = 11 then 30
  else 31

def realCalendarDate (y m d : Int) : Bool :=
  1 ≤ m && m ≤ 12 && 1 ≤ d && d ≤ daysInMonth y m

theorem findAllMatches_resolved {now : Now} {s : Str} {m : Match}
    (h : m ∈ findAllMatches now s) :
    ∃ p ∈ DATE_PATTERNS, ∃ rm ∈ scanPattern p.rx s,
      p.resolve now rm.caps = some m.date ∧ m.start = rm.start ∧ m.stop = rm.stop := by
  unfold findAllMatches at h
  simp only [List.mem_flatMap, List.mem_filterMap, Option.map_eq_some'] at h
  obtain ⟨p, hp, rm, hrm, d, hd, rfl⟩ := h
  exact ⟨p, hp, rm, hrm, hd, rfl, rfl⟩

/-- A fixed reference instant for closed statements (2025-10-09, year 2025). -/
def refNow : Now := ⟨1760000000000, 2025⟩

/-- C8 (amended): every resolver is a total function whose only outcomes are
a resolved date (`some`) or a rejection (`none`); the numeric resolvers
reject exactly on the day/month magnitude checks (after the swap attempt for
slash dates), each of the four month-name resolvers rejects exactly when the
parsed day is out of range for the recognized month, the spec's `2025-13-01`
example is rejected, and only successfully resolved candidates ever reach
the overlap resolver.  An in-range but calendar-inconsistent triple such as
`2025-02-31` is *not* rejected — it overflows into the next month (see the
counterexample). -/
theorem c8_resolver_rejection :
    (∀ (now : Now) (caps : List Str),
        resolveISO now caps = none ↔ isValidDate (capInt caps 2) (capInt caps 1) = false) ∧
      (∀ (now : Now) (caps : List Str),
        resolveSlashYear now caps = none ↔
          normalizeMonthDay (capInt caps 0) (capInt caps 1) true = none) ∧
      (∀ (now : Now) (caps : List Str),
        resolveShortSlash now caps = none ↔
          normalizeMonthDay (capInt caps 0) (capInt caps 1) false = none) ∧
      (∀ (now : Now) (caps : List Str) (mo : Int),
        dictLookup MONTH_DICTIONARY ((cap caps 0).map Char.toLower) = some mo →
        (resolveMonthDayYear now caps = none ↔
          isValidDate (parseOrdinal (cap caps 1)) mo = false)) ∧
      (∀ (now : Now) (caps : List Str) (mo : Int),
        dictLookup MONTH_DICTIONARY ((cap caps 1).map Char.toLower) = some mo →
        (resolveDayMonthYear now caps = none ↔
          isValidDate (parseOrdinal (cap caps 0)) mo = false)) ∧
      (∀ (now : Now) (caps : List Str) (mo : Int),
        dictLookup MONTH_DICTIONARY ((cap caps 0).map Char.toLower) = some mo →
        (resolveMonthDay now caps = none ↔
          isValidDate (parseOrdinal (cap caps 1)) mo = false)) ∧
      (∀ (now : Now) (caps : List Str) (mo : Int),
        dictLookup MONTH_DICTIONARY ((cap caps 1).map Char.toLower) = some mo →
        (resolveDayMonth now caps = none ↔
          isValidDate (parseOrdinal (cap caps 0)) mo = false)) ∧
      (∀ now : Now, resolveISO now ["2025".toList, "13".toList, "01".toList] = none) ∧
      ∀ (now : Now) (s : Str) (m : Match), m ∈ findAllMatches now s →
        ∃ p ∈ DATE_PATTERNS, ∃ rm ∈ scanPattern p.rx s,
          p.resolve now rm.caps = some m.date ∧ m.start = rm.start ∧ m.stop = rm.stop := by
  refine ⟨?_, ?_, ?_, ?_, ?_, ?_, ?_, fun now => rfl, fun now s m h => findAllMatches_resolved h⟩
  · intro now caps
    simp only [resolveISO]
    cases hv : isValidDate (capInt caps 2) (capInt caps 1) <;> simp [hv]
  · intro now caps
    simp only [resolveSlashYear]
    cases hn : normalizeMonthDay (capInt caps 0) (capInt caps 1) true with
    | none => simp [hn]
    | some dm => cases dm with | mk d mo => simp [hn]
  · intro now caps
    simp only [resolveShortSlash]
    cases hn : normalizeMonthDay (capInt caps 0) (capInt caps 1) false with
    | none => simp [hn]
    | some dm => cases dm with | mk d mo => simp [hn]
  · intro now caps mo hdict
    simp only [resolveMonthDayYear, hdict]
    cases hv : isValidDate (parseOrdinal (cap caps 1)) mo <;> simp [hv]
  · intro now caps mo hdict
    simp only [resolveDayMonthYear, hdict]
    cases hv : isValidDate (parseOrdinal (cap caps 0)) mo <;> simp [hv]
  · intro now caps mo hdict
    simp only [resolveMonthDay, hdict]
    cases hv : isValidDate (parseOrdinal (cap caps 1)) mo <;> simp [hv]
  · intro now caps mo hdict
    simp only [resolveDayMonth, hdict]
    cases hv : isValidDate (parseOrdinal (cap caps 0)) mo <;> simp [hv]

/-- C8 counterexample: the ISO resolver accepts `2025-02-31` — an in-range but
calendar-inconsistent date — and rolls it over to the instant of 2025-03-03
instead of rejecting it, so "rejects internally inconsistent calendar dates"
holds only for the magnitude-violating kind like `2025-13-01`. -/
theorem c8_counterexample :
    resolveISO refNow ["2025".toList, "2".toList, "31".toList]
        = some (mkDateMs 2025 1 31) ∧
      mkDateMs 2025 1 31 = mkDateMs 2025 2 3 ∧
      realCalendarDate 2025 2 31 = false := by
  refine ⟨rfl, by decide, by decide⟩


/-! Clock-time-suffix suppression (C6): the spec-side predicate and its
correspondence with the lookahead body `\\s*(?:am|pm|:\\d)`. -/

/-- The clock-time test at the head of a string: `am`, `pm`
(case-insensitively) or `:` followed by a digit. -/
def suffixHead (rem : Str) : Bool :=
  decide ((rem.take 2).map Char.toLower = "am".toList) ||
    decide ((rem.take 2).map Char.toLower = "pm".toList) ||
    (match rem with
     | c0 :: d :: _ => decide (c0 = ':') && isDigitC d
     | _ => false)

/-- The spec's "immediately followed, ignoring whitespace, by a clock-time
suffix", at the head of a remainder string. -/
def clockSuffixRem (rem : Str) : Bool := suffixHead (rem.dropWhile isSpaceC)

/-- The same, at position `j` of the full text. -/
def clockSuffixAt (s : Str) (j : Nat) : Bool := clockSuffixRem (s.drop j)

theorem consumeLitAux_isSome (lit : Str) : ∀ (rem : Str) (p : Option Char),
    (consumeLitAux lit rem p).isSome = true ↔
      (rem.take lit.length).map Char.toLower = lit := by
  induction lit with
  | nil => intro rem p; simp [consumeLitAux]
  | cons c cs ih =>
    intro rem p
    cases rem with
    | nil => simp [consumeLitAux]
    | cons x xs =>
      simp only [consumeLitAux, List.length_cons, List.take_succ_cons, List.map_cons,
        List.cons.injEq]
      by_cases hx : x.toLower = c
      · rw [if_pos hx, ih xs (some x)]
        simp [hx]
      · rw [if_neg hx]
        simp [hx]

theorem ccRun_le_length (k : CC) : ∀ l : Str, ccRun k l ≤ l.length := by
  intro l
  induction l with
  | nil => simp [ccRun]
  | cons c cs ih =>
    rw [ccRun]
    split
    · simpa using ih
    · simp

theorem dropWhile_eq_drop_ccRun : ∀ l : Str, l.dropWhile isSpaceC = l.drop (ccRun .space l) := by
  intro l
  induction l with
  | nil => rfl
  | cons c cs ih =>
    rw [List.dropWhile_cons, ccRun]
    by_cases hc : isSpaceC c = true
    · rw [if_pos hc, if_pos (show CC.mem .space c = true from hc)]
      simpa using ih
    · rw [if_neg hc, if_neg (show ¬CC.mem .space c = true from hc)]
      rfl

theorem drop_head_space : ∀ (l : Str) (k : Nat), k < ccRun .space l →
    ∃ x rest, l.drop k = x :: rest ∧ isSpaceC x = true := by
  intro l
  induction l with
  | nil => intro k h; simp [ccRun] at h
  | cons c cs ih =>
    intro k h
    rw [ccRun] at h
    split at h
    · rename_i hc
      cases k with
      | zero => exact ⟨c, cs, rfl, hc⟩
      | succ k' =>
        rw [List.drop_succ_cons]
        exact ih k' (by omega)
    · omega

theorem space_toLower {x : Char} (hx : isSpaceC x = true) :
    x.toLower ≠ 'a' ∧ x.toLower ≠ 'p' ∧ x ≠ ':' := by
  simp only [isSpaceC, Bool.or_eq_true, decide_eq_true_eq] at hx
  rcases hx with ((((h | h) | h) | h) | h) | h <;> subst h <;>
    exact ⟨by decide, by decide, by decide⟩

theorem suffixHead_space_cons {x : Char} (hx : isSpaceC x = true) (rest : Str) :
    suffixHead (x :: rest) = false := by
  obtain ⟨ha, hp, hc⟩ := space_toLower hx
  cases rest with
  | nil => simp [suffixHead, ha, hp]
  | cons d rest2 => simp [suffixHead, ha, hp, hc]

theorem mtch_str_ne_nil (lit : Str) (st : MSt) :
    (Rx.mtch (Rx.str lit) st ≠ []) ↔ (st.rem.take lit.length).map Char.toLower = lit := by
  rw [← consumeLitAux_isSome lit st.rem st.prev, Rx.mtch]
  unfold consumeLit
  cases h : consumeLitAux lit st.rem st.prev <;> simp [h]

theorem mtch_colon_digit_ne_nil (st : MSt) :
    (Rx.mtch (Rx.seq (Rx.cc .colon) (Rx.cc .digit)) st ≠ []) ↔
      (match st.rem with
       | c0 :: d :: _ => decide (c0 = ':') && isDigitC d
       | _ => false) = true := by
  obtain ⟨rem, p, cps⟩ := st
  cases rem with
  | nil => simp [Rx.mtch]
  | cons c0 rest =>
    cases rest with
    | nil =>
      by_cases hc : c0 = ':'
      · subst hc
        simp [Rx.mtch, CC.mem]
      · simp [Rx.mtch, CC.mem, hc]
    | cons d rest2 =>
      by_cases hc : c0 = ':'
      · subst hc
        by_cases hd : isDigitC d = true
        · simp [Rx.mtch, CC.mem, hd]
        · simp [Rx.mtch, CC.mem, hd]
      · simp [Rx.mtch, CC.mem, hc]

theorem mtch_ALTS_ne_nil (st : MSt) :
    (Rx.mtch ALTS_RX st ≠ []) ↔ suffixHead st.rem = true := by
  have h1 := mtch_str_ne_nil ("am".toList) st
  have h2 := mtch_str_ne_nil ("pm".toList) st
  have h3 := mtch_colon_digit_ne_nil st
  have hlen1 : ("am".toList).length = 2 := rfl
  have hlen2 : ("pm".toList).length = 2 := rfl
  rw [hlen1] at h1
  rw [hlen2] at h2
  have hsplit : Rx.mtch ALTS_RX st =
      Rx.mtch (Rx.str "am".toList) st ++
        (Rx.mtch (Rx.str "pm".toList) st ++
          Rx.mtch (Rx.seq (Rx.cc .colon) (Rx.cc .digit)) st) := rfl
  have key : ∀ a b c : List MSt, (a ++ (b ++ c) ≠ []) ↔ (a ≠ [] ∨ b ≠ [] ∨ c ≠ []) := by
    intro a b c
    simp only [ne_eq, List.append_eq_nil]
    tauto
  rw [hsplit, key, h1, h2, h3]
  simp only [suffixHead, Bool.or_eq_true, decide_eq_true_eq]
  tauto


theorem consumeN_rem (st : MSt) (n : Nat) : (st.consumeN n).rem = st.rem.drop n := rfl

theorem mem_starCC_iff {k : CC} {st st' : MSt} :
    st' ∈ Rx.mtch (Rx.starCC k) st ↔ ∃ n, n ≤ ccRun k st.rem ∧ st' = st.consumeN n := by
  have hmin : min (ccRun k st.rem) st.rem.length = ccRun k st.rem :=
    Nat.min_eq_left (ccRun_le_length k st.rem)
  simp only [Rx.mtch, repCCm, hmin]
  rw [if_pos (Nat.zero_le _)]
  simp only [List.mem_map, List.mem_range]
  constructor
  · rintro ⟨i, hi, rfl⟩
    exact ⟨ccRun k st.rem - i, by omega, rfl⟩
  · rintro ⟨n, hn, rfl⟩
    refine ⟨ccRun k st.rem - n, by omega, ?_⟩
    congr 1
    omega

theorem mtch_TIME_ne_nil (st : MSt) :
    (Rx.mtch TIME_SUFFIX_RX st ≠ []) ↔ clockSuffixRem st.rem = true := by
  have hexp : Rx.mtch TIME_SUFFIX_RX st =
      (Rx.mtch (Rx.starCC .space) st).flatMap (fun st2 => Rx.mtch ALTS_RX st2) := rfl
  rw [hexp]
  have hiff : ((Rx.mtch (Rx.starCC .space) st).flatMap (fun st2 => Rx.mtch ALTS_RX st2) ≠ [])
      ↔ ∃ st2 ∈ Rx.mtch (Rx.starCC .space) st, Rx.mtch ALTS_RX st2 ≠ [] := by
    rw [ne_eq, List.flatMap_eq_nil_iff]
    push_neg
    rfl
  rw [hiff]
  constructor
  · rintro ⟨st2, hmem, hne⟩
    obtain ⟨n, hn, rfl⟩ := mem_starCC_iff.mp hmem
    have hsuf : suffixHead (st.rem.drop n) = true := by
      have := (mtch_ALTS_ne_nil _).mp hne
      simpa [consumeN_rem] using this
    by_cases hlt : n < ccRun .space st.rem
    · obtain ⟨x, rest, hdrop, hx⟩ := drop_head_space st.rem n hlt
      rw [hdrop, suffixHead_space_cons hx] at hsuf
      cases hsuf
    · have heq : n = ccRun .space st.rem := by omega
      subst heq
      unfold clockSuffixRem
      rw [dropWhile_eq_drop_ccRun]
      exact hsuf
  · intro h
    refine ⟨st.consumeN (ccRun .space st.rem),
      mem_starCC_iff.mpr ⟨_, le_refl _, rfl⟩, ?_⟩
    apply (mtch_ALTS_ne_nil _).mpr
    unfold clockSuffixRem at h
    rw [dropWhile_eq_drop_ccRun] at h
    simpa [consumeN_rem] using h

/-! Inversion lemmas for decomposing a successful match. -/

theorem mem_mtch_seq {a b : Rx} {st st' : MSt} :
    st' ∈ (Rx.seq a b).mtch st ↔ ∃ st1, st1 ∈ a.mtch st ∧ st' ∈ b.mtch st1 := by
  simp [Rx.mtch]

theorem mem_mtch_wb {st st' : MSt} (h : st' ∈ Rx.wb.mtch st) : st' = st := by
  rw [Rx.mtch] at h
  split at h <;> simp_all

theorem mem_mtch_nla {a : Rx} {st st' : MSt} (h : st' ∈ (Rx.nla a).mtch st) :
    a.mtch st = [] ∧ st' = st := by
  rw [Rx.mtch] at h
  split at h
  · rename_i he
    rw [List.isEmpty_iff] at he
    simp only [List.mem_singleton] at h
    exact ⟨he, h⟩
  · exact absurd h (by simp)

theorem mem_mtch_group {a : Rx} {st st' : MSt} (h : st' ∈ (Rx.group a).mtch st) :
    ∃ st1, st1 ∈ a.mtch st ∧
      st' = { st1 with caps := st1.caps ++ [st.rem.take (st.rem.length - st1.rem.length)] } := by
  simp only [Rx.mtch, List.mem_map] at h
  obtain ⟨st1, h1, rfl⟩ := h
  exact ⟨st1, h1, rfl⟩

theorem suffix_eq_drop {l s : Str} (h : l <:+ s) : l = s.drop (s.length - l.length) := by
  obtain ⟨t, rfl⟩ := h
  have hlen : (t ++ l).length - l.length = t.length := by simp
  rw [hlen, List.drop_left]

/-- Syntactic absence of capturing groups. -/
def Rx.groupFreeB : Rx → Bool
  | .group _ => false
  | .seq a b => a.groupFreeB && b.groupFreeB
  | .alt a b => a.groupFreeB && b.groupFreeB
  | .opt a => a.groupFreeB
  | _ => true

theorem mtch_caps_of_groupFree {r : Rx} (hr : r.groupFreeB = true) :
    ∀ {st st' : MSt}, st' ∈ r.mtch st → st'.caps = st.caps := by
  induction r with
  | eps =>
    intro st st' h
    simp only [Rx.mtch, List.mem_singleton] at h
    exact h ▸ rfl
  | str lit =>
    intro st st' h
    rw [Rx.mtch] at h
    cases hc : consumeLit lit st with
    | none => rw [hc] at h; exact absurd h (by simp)
    | some st1 =>
      rw [hc] at h
      simp only [List.mem_singleton] at h
      subst h
      unfold consumeLit at hc
      simp only [Option.map_eq_some'] at hc
      obtain ⟨q, _, rfl⟩ := hc
      rfl
  | cc k =>
    intro st st' h
    rw [Rx.mtch] at h
    cases hrem : st.rem with
    | nil => simp only [hrem] at h; exact absurd h (by simp)
    | cons x xs =>
      simp only [hrem] at h
      by_cases hk : k.mem x = true
      · simp only [hk, if_pos, List.mem_singleton] at h
        exact h ▸ rfl
      · simp [hk] at h
  | seq a b iha ihb =>
    intro st st' h
    simp only [Rx.groupFreeB, Bool.and_eq_true] at hr
    obtain ⟨st1, h1, h2⟩ := mem_mtch_seq.mp h
    rw [ihb hr.2 h2, iha hr.1 h1]
  | alt a b iha ihb =>
    intro st st' h
    simp only [Rx.groupFreeB, Bool.and_eq_true] at hr
    simp only [Rx.mtch, List.mem_append] at h
    rcases h with h | h
    · exact iha hr.1 h
    · exact ihb hr.2 h
  | opt a iha =>
    intro st st' h
    simp only [Rx.groupFreeB] at hr
    simp only [Rx.mtch, List.mem_append, List.mem_singleton] at h
    rcases h with h | h
    · exact iha hr h
    · exact h ▸ rfl
  | repCC k lo hi =>
    intro st st' h
    exact (repCCm_spec (by simpa [Rx.mtch] using h)).2
  | plusCC k =>
    intro st st' h
    exact (repCCm_spec (by simpa [Rx.mtch] using h)).2
  | starCC k =>
    intro st st' h
    exact (repCCm_spec (by simpa [Rx.mtch] using h)).2
  | group a _ => simp [Rx.groupFreeB] at hr
  | nla a _ =>
    intro st st' h
    exact (mem_mtch_nla h).2 ▸ rfl
  | wb =>
    intro st st' h
    exact (mem_mtch_wb h) ▸ rfl


/-- Decomposing a match of `\\b(MONTH)\\s+(ORD)(?!TIME)...`: the state right
after the ordinal (where the negative lookahead was evaluated) has no
clock-time suffix, and the ordinal capture is the slice it consumed. -/
theorem md_core_decomp {tail : Rx} {st0 st : MSt}
    (h : st ∈ (Rx.seq Rx.wb (Rx.seq (Rx.group MONTH_RX) (Rx.seq (Rx.plusCC .space)
      (Rx.seq (Rx.group ORD_RX) (Rx.seq (Rx.nla TIME_SUFFIX_RX) tail))))).mtch st0) :
    ∃ s4 rem3 mc, Rx.mtch TIME_SUFFIX_RX s4 = [] ∧ st ∈ tail.mtch s4 ∧
      rem3 <:+ st0.rem ∧ s4.rem <:+ rem3 ∧
      s4.caps = st0.caps ++ [mc, rem3.take (rem3.length - s4.rem.length)] := by
  obtain ⟨s1, hs1, hA⟩ := mem_mtch_seq.mp h
  clear h
  have hs1e := mem_mtch_wb hs1
  rw [hs1e] at hA
  clear hs1 hs1e s1
  obtain ⟨s2, hs2, hB⟩ := mem_mtch_seq.mp hA
  obtain ⟨s2a, hs2a, hs2e⟩ := mem_mtch_group hs2
  obtain ⟨s3, hs3, hC⟩ := mem_mtch_seq.mp hB
  obtain ⟨s4, hs4, hD⟩ := mem_mtch_seq.mp hC
  obtain ⟨s4a, hs4a, hs4e⟩ := mem_mtch_group hs4
  obtain ⟨s5, hs5, hE⟩ := mem_mtch_seq.mp hD
  obtain ⟨hTnil, hs5e⟩ := mem_mtch_nla hs5
  rw [hs5e] at hE
  have hs2acaps : s2a.caps = st0.caps := mtch_caps_of_groupFree (by decide) hs2a
  have hs3caps : s3.caps = s2.caps := (repCCm_spec (by simpa [Rx.mtch] using hs3)).2
  have hs4acaps : s4a.caps = s3.caps := mtch_caps_of_groupFree (by decide) hs4a
  have hs3rem : s3.rem <:+ st0.rem := by
    have h1 : s3.rem <:+ s2.rem := (repCCm_spec (by simpa [Rx.mtch] using hs3)).1
    have h2 : s2.rem = s2a.rem := by rw [hs2e]
    have h3 : s2a.rem <:+ st0.rem := mtch_suffix _ hs2a
    rw [h2] at h1
    exact h1.trans h3
  have hs4rem : s4.rem <:+ s3.rem := by
    have h1 : s4.rem = s4a.rem := by rw [hs4e]
    exact h1 ▸ mtch_suffix _ hs4a
  have hcaps4 : s4.caps = s3.caps ++ [s3.rem.take (s3.rem.length - s4.rem.length)] := by
    rw [hs4e]
    dsimp only
    rw [hs4acaps]
  have hcaps2 : s2.caps = st0.caps ++ [st0.rem.take (st0.rem.length - s2a.rem.length)] := by
    rw [hs2e]
    dsimp only
    rw [hs2acaps]
  refine ⟨s4, s3.rem, st0.rem.take (st0.rem.length - s2a.rem.length), hTnil, hE,
    hs3rem, hs4rem, ?_⟩
  rw [hcaps4, hs3caps, hcaps2]
  simp


theorem monthDay_no_clock_suffix {s : Str} {rm : RawM}
    (h : rm ∈ scanPattern rxMonthDay s) :
    clockSuffixAt s rm.stop = false ∧
      ∃ j, rm.start ≤ j ∧ j ≤ rm.stop ∧
        cap rm.caps 1 = (s.drop j).take (rm.stop - j) := by
  obtain ⟨h1, h2, st, hexec, hstop, hcaps⟩ := scanPattern_spec h
  unfold execAt at hexec
  have hmem := List.mem_of_mem_head? (Option.mem_def.mpr hexec)
  obtain ⟨s4, rem3, mc, hTnil, htail, hrem3, hs4rem, hcapseq⟩ := md_core_decomp hmem
  have hst4 := mem_mtch_wb htail
  have hsufF : clockSuffixRem s4.rem = false := by
    cases hb : clockSuffixRem s4.rem with
    | false => rfl
    | true => exact absurd ((mtch_TIME_ne_nil s4).mpr hb) (by simp [hTnil])
  have hstrem : st.rem <:+ s := (mtch_suffix _ hmem).trans (List.drop_suffix _ _)
  have hlen0 : st.rem.length ≤ s.length := hstrem.length_le
  have hdropstop : st.rem = s.drop rm.stop := by
    have hsd := suffix_eq_drop hstrem
    rw [← hstop] at hsd
    exact hsd
  constructor
  · unfold clockSuffixAt
    rw [← hdropstop, hst4]
    exact hsufF
  · have hrem3s : rem3 <:+ s := hrem3.trans (List.drop_suffix _ _)
    have hj : rem3 = s.drop (s.length - rem3.length) := suffix_eq_drop hrem3s
    have hr3le : rem3.length ≤ s.length := hrem3s.length_le
    have hr3start : rem3.length ≤ s.length - rm.start := by
      have := hrem3.length_le
      simpa using this
    have hs4le : s4.rem.length ≤ rem3.length := hs4rem.length_le
    have hstlen : st.rem.length = s.length - rm.stop := by omega
    have hs4len : s4.rem.length = s.length - rm.stop := by
      rw [← hst4]
      exact hstlen
    have hstartle : rm.start ≤ s.length := by omega
    have hcapsval : rm.caps = [mc, rem3.take (rem3.length - s4.rem.length)] := by
      rw [hcaps, hst4, hcapseq]
      rfl
    refine ⟨s.length - rem3.length, by omega, by omega, ?_⟩
    calc cap rm.caps 1 = rem3.take (rem3.length - s4.rem.length) := by rw [hcapsval]; rfl
      _ = (s.drop (s.length - rem3.length)).take
            (rm.stop - (s.length - rem3.length)) := by
          rw [← hj]
          congr 1
          omega

theorem monthDayYear_no_clock_suffix {s : Str} {rm : RawM}
    (h : rm ∈ scanPattern rxMonthDayYear s) :
    ∃ j3 j4, rm.start ≤ j3 ∧ j3 ≤ j4 ∧ j4 ≤ rm.stop ∧
      cap rm.caps 1 = (s.drop j3).take (j4 - j3) ∧ clockSuffixAt s j4 = false := by
  obtain ⟨h1, h2, st, hexec, hstop, hcaps⟩ := scanPattern_spec h
  unfold execAt at hexec
  have hmem := List.mem_of_mem_head? (Option.mem_def.mpr hexec)
  obtain ⟨s4, rem3, mc, hTnil, htail, hrem3, hs4rem, hcapseq⟩ := md_core_decomp hmem
  obtain ⟨s6, hs6, hF⟩ := mem_mtch_seq.mp htail
  obtain ⟨s7, hs7, hG⟩ := mem_mtch_seq.mp hF
  obtain ⟨s7a, hs7a, hs7e⟩ := mem_mtch_group hs7
  have hst7 := mem_mtch_wb hG
  have hs6caps : s6.caps = s4.caps := (repCCm_spec (by simpa [Rx.mtch] using hs6)).2
  have hs6rem : s6.rem <:+ s4.rem := (repCCm_spec (by simpa [Rx.mtch] using hs6)).1
  have hs7rem : s7.rem <:+ s6.rem := by
    have he : s7.rem = s7a.rem := by rw [hs7e]
    exact he ▸ mtch_suffix _ hs7a
  have hstcaps : st.caps = s4.caps ++ [s6.rem.take (s6.rem.length - s7a.rem.length)] := by
    rw [hst7, hs7e]
    dsimp only
    rw [mtch_caps_of_groupFree (by decide) hs7a, hs6caps]
  have hsufF : clockSuffixRem s4.rem = false := by
    cases hb : clockSuffixRem s4.rem with
    | false => rfl
    | true => exact absurd ((mtch_TIME_ne_nil s4).mpr hb) (by simp [hTnil])
  have hstrem : st.rem <:+ s := (mtch_suffix _ hmem).trans (List.drop_suffix _ _)
  have hlen0 : st.rem.length ≤ s.length := hstrem.length_le
  have hrem3s : rem3 <:+ s := hrem3.trans (List.drop_suffix _ _)
  have hs4s : s4.rem <:+ s := hs4rem.trans hrem3s
  have hj4 : s4.rem = s.drop (s.length - s4.rem.length) := suffix_eq_drop hs4s
  have hj3 : rem3 = s.drop (s.length - rem3.length) := suffix_eq_drop hrem3s
  have hr3le : rem3.length ≤ s.length := hrem3s.length_le
  have hr3start : rem3.length ≤ s.length - rm.start := by
    have := hrem3.length_le
    simpa using this
  have hs4le : s4.rem.length ≤ rem3.length := hs4rem.length_le
  have hstle4 : st.rem.length ≤ s4.rem.length := by
    have ha : st.rem = s7.rem := by rw [hst7]
    have hb := hs7rem.length_le
    have hc := hs6rem.length_le
    rw [ha]
    omega
  have hstlen : st.rem.length = s.length - rm.stop := by omega
  have hstartle : rm.start ≤ s.length := by omega
  have hcapsval : rm.caps =
      [mc, rem3.take (rem3.length - s4.rem.length),
        s6.rem.take (s6.rem.length - s7a.rem.length)] := by
    rw [hcaps, hstcaps, hcapseq]
    rfl
  refine ⟨s.length - rem3.length, s.length - s4.rem.length, by omega, by omega, by omega,
    ?_, ?_⟩
  · calc cap rm.caps 1 = rem3.take (rem3.length - s4.rem.length) := by rw [hcapsval]; rfl
      _ = (s.drop (s.length - rem3.length)).take
            ((s.length - s4.rem.length) - (s.length - rem3.length)) := by
          rw [← hj3]
          congr 1
          omega
  · unfold clockSuffixAt
    rw [← hj4]
    exact hsufF

/-- C6: the month-name+day recognizers never produce a match in which the day
number is immediately followed, ignoring whitespace, by a clock-time suffix
(`am`, `pm`, or `:` plus digit): in every accepted match the position right
after the day-number capture fails the clock-suffix test, because the
recognizer's own negative lookahead was evaluated there.  In particular
`"Meeting jan 12:00"` has no raw match of either recognizer — the suppression
happens at the pattern, not by later filtering — and parse returns it
unchanged as one text token with an empty event. -/
theorem c6_clock_time_suppression :
    (∀ (s : Str) (rm : RawM), rm ∈ scanPattern rxMonthDay s →
        clockSuffixAt s rm.stop = false ∧
          ∃ j, rm.start ≤ j ∧ j ≤ rm.stop ∧
            cap rm.caps 1 = (s.drop j).take (rm.stop - j)) ∧
      (∀ (s : Str) (rm : RawM), rm ∈ scanPattern rxMonthDayYear s →
        ∃ j3 j4, rm.start ≤ j3 ∧ j3 ≤ j4 ∧ j4 ≤ rm.stop ∧
          cap rm.caps 1 = (s.drop j3).take (j4 - j3) ∧ clockSuffixAt s j4 = false) ∧
      scanPattern rxMonthDay ("Meeting jan 12:00".toList) = [] ∧
      scanPattern rxMonthDayYear ("Meeting jan 12:00".toList) = [] ∧
      ∀ now : Now, parse now ("Meeting jan 12:00".toList) =
        ⟨[⟨TokType.text, "Meeting jan 12:00".toList, 0, 17⟩], none,
          "Meeting jan 12:00".toList⟩ := by
  refine ⟨fun s rm h => monthDay_no_clock_suffix h,
    fun s rm h => monthDayYear_no_clock_suffix h, by decide, by decide, fun now => rfl⟩

theorem parse_cleanTitle_def (now : Now) (s : Str) :
    (parse now s).cleanTitle =
      joinSpace ((((parse now s).tokens.filter (fun t => t.type = TokType.text)).map
        (fun t => trimStr t.raw)).filter (fun r => 0 < r.length)) := rfl

/-- C4 (amended): the clean title is the single-space join of the trimmed,
non-empty text-token contents; with an anchor it is built from exactly the
text before the anchor span and the text after it, so the anchor token itself
never enters the title (an identical substring from elsewhere in the text
still can — see the counterexample). -/
theorem c4_clean_title_join (now : Now) (s : Str) :
    ((parse now s).cleanTitle =
        joinSpace ((((parse now s).tokens.filter (fun t => t.type = TokType.text)).map
          (fun t => trimStr t.raw)).filter (fun r => 0 < r.length))) ∧
      ∀ m, (filterOverlappingMatches (findAllMatches now s)).getLast? = some m →
        (parse now s).cleanTitle =
          joinSpace (([trimStr (s.take m.start), trimStr (s.drop m.stop)]).filter
            (fun r => 0 < r.length)) := by
  refine ⟨parse_cleanTitle_def now s, fun m hm => ?_⟩
  have hmem : m ∈ findAllMatches now s :=
    filterOverlappingMatches_mem (List.mem_of_mem_getLast? hm)
  obtain ⟨h1, h2, _⟩ := findAllMatches_wf hmem
  rw [parse_cleanTitle_def, parse_tokens_def, hm, buildTokens]
  by_cases hpre : 0 < m.start <;> by_cases hpost : m.stop < s.length <;>
    simp only [hpre, hpost, if_pos, if_neg, if_true, if_false, List.nil_append,
      List.append_nil, List.cons_append, List.singleton_append]
  · simp [List.filter, List.map]
  · have hstop : m.stop = s.length := by omega
    simp [List.filter, List.map, hstop, List.drop_length, trimStr]
  · have hstart : m.start = 0 := by omega
    simp [List.filter, List.map, hstart, trimStr]
  · have hstart : m.start = 0 := by omega
    have hstop : m.stop = s.length := by omega
    simp [List.filter, List.map, hstart, hstop, List.drop_length, trimStr]

/-- C4 counterexample: in `"today x today"` the anchor is the second
`"today"`, yet the clean title `"today x"` still contains the anchor's raw
substring (the first occurrence survives as text), refuting "the cleanTitle
never contains the anchor's raw substring". -/
theorem c4_counterexample :
    (parse refNow ("today x today".toList)).cleanTitle = "today x".toList ∧
      (∃ m, (filterOverlappingMatches (findAllMatches refNow ("today x today".toList))).getLast?
          = some m ∧ m.raw = "today".toList) ∧
      containsSub ("today x".toList) ("today".toList) = true := by
  refine ⟨by decide, ⟨⟨8, 13, "today".toList, 1760000000000⟩, by decide, by decide⟩, by decide⟩

/-- The swap branch of `normalizeMonthDay` when the swapped pair is allowed. -/
theorem nmd_swap (f s : Int) (b : Bool) (h12 : 12 < (if b then f else s))
    (hc : 1 ≤ (if b then s else f) ∧ (if b then s else f) ≤ 12 ∧ (if b then f else s) ≤ 31) :
    normalizeMonthDay f s b =
      if isValidDate (if b then f else s) (if b then s else f) then
        some ((if b then f else s), (if b then s else f))
      else none := by
  simp only [normalizeMonthDay]
  rw [if_pos h12, if_pos]
  simp only [Bool.and_eq_true, decide_eq_true_eq]
  exact ⟨⟨hc.1, hc.2.1⟩, hc.2.2⟩

/-- The rejecting branch of `normalizeMonthDay`: month too large, no swap
possible. -/
theorem nmd_reject (f s : Int) (b : Bool) (h12 : 12 < (if b then f else s))
    (hc : ¬(1 ≤ (if b then s else f) ∧ (if b then s else f) ≤ 12 ∧ (if b then f else s) ≤ 31)) :
    normalizeMonthDay f s b = none := by
  simp only [normalizeMonthDay]
  rw [if_pos h12, if_neg]
  simp only [Bool.and_eq_true, decide_eq_true_eq]
  tauto

/-- The no-swap branch of `normalizeMonthDay`. -/
theorem nmd_noswap (f s : Int) (b : Bool) (h12 : (if b then f else s) ≤ 12) :
    normalizeMonthDay f s b =
      if isValidDate (if b then s else f) (if b then f else s) then
        some ((if b then s else f), (if b then f else s))
      else none := by
  simp only [normalizeMonthDay]
  rw [if_neg (by omega)]

/-- C5: the month/day swap happens exactly when the nominal month exceeds 12
and the nominal day can serve as a month (1–12) with the nominal month a
plausible day (≤ 31); otherwise such a pair is rejected, and every accepted
pair passes the final day 1–31 / month 1–12 validation.  Consequently
`parse "Meeting 13/5/2025"` yields the instant of 2025-05-13 (month 5,
day 13) for every reference date. -/
theorem c5_month_day_swap :
    (∀ (f s : Int) (b : Bool) (d mo : Int), normalizeMonthDay f s b = some (d, mo) →
        1 ≤ d ∧ d ≤ 31 ∧ 1 ≤ mo ∧ mo ≤ 12) ∧
      (∀ (f s : Int) (b : Bool), 12 < (if b then f else s) →
        ¬(1 ≤ (if b then s else f) ∧ (if b then s else f) ≤ 12 ∧ (if b then f else s) ≤ 31) →
        normalizeMonthDay f s b = none) ∧
      (∀ (f s : Int) (b : Bool), 12 < (if b then f else s) →
        (1 ≤ (if b then s else f) ∧ (if b then s else f) ≤ 12 ∧ (if b then f else s) ≤ 31) →
        normalizeMonthDay f s b =
          if isValidDate (if b then f else s) (if b then s else f) then
            some ((if b then f else s), (if b then s else f))
          else none) ∧
      (∀ (f s : Int) (b : Bool), (if b then f else s) ≤ 12 →
        normalizeMonthDay f s b =
          if isValidDate (if b then s else f) (if b then f else s) then
            some ((if b then s else f), (if b then f else s))
          else none) ∧
      ∀ now : Now, (parse now ("Meeting 13/5/2025".toList)).event = some (mkDateMs 2025 4 13) := by
  refine ⟨?_, nmd_reject, nmd_swap, nmd_noswap, fun now => rfl⟩
  · intro f s b d mo h
    simp only [normalizeMonthDay] at h
    set mo0 := (if b = true then f else s) with hmo0
    set dy0 := (if b = true then s else f) with hdy0
    by_cases h1 : 12 < mo0
    · rw [if_pos h1] at h
      by_cases h2 : (1 ≤ dy0 && dy0 ≤ 12 && mo0 ≤ 31) = true
      · rw [if_pos h2] at h
        by_cases h3 : isValidDate mo0 dy0 = true
        · rw [if_pos h3] at h
          simp only [Option.some.injEq, Prod.mk.injEq] at h
          simp only [isValidDate, Bool.and_eq_true, decide_eq_true_eq] at h3
          omega
        · rw [if_neg h3] at h
          exact absurd h (by simp)
      · rw [if_neg h2] at h
        exact absurd h (by simp)
    · rw [if_neg h1] at h
      by_cases h3 : isValidDate dy0 mo0 = true
      · rw [if_pos h3] at h
        simp only [Option.some.injEq, Prod.mk.injEq] at h
        simp only [isValidDate, Bool.and_eq_true, decide_eq_true_eq] at h3
        omega
      · rw [if_neg h3] at h
        exact absurd h (by simp)

/-- C7 (amended): a text with no accepted candidate parses without error to
an empty event and a clean title equal to the trimmed original text (interior
whitespace is preserved, see the counterexample); in particular
`"Regular meeting notes"` passes through unchanged. -/
theorem c7_no_match_passthrough :
    (∀ (now : Now) (s : Str), findAllMatches now s = [] →
        (parse now s).event = none ∧ (parse now s).cleanTitle = trimStr s) ∧
      ∀ now : Now,
        (parse now ("Regular meeting notes".toList)).event = none ∧
          (parse now ("Regular meeting notes".toList)).cleanTitle
            = "Regular meeting notes".toList := by
  refine ⟨fun now s h => ?_, fun now => ⟨rfl, rfl⟩⟩
  have hfil : filterOverlappingMatches (findAllMatches now s) = [] := by
    rw [h]; rfl
  constructor
  · rw [parse_event_def, hfil]; rfl
  · have htok : (parse now s).tokens = buildTokens s none := by
      rw [parse_tokens_def, hfil]; rfl
    rw [parse_cleanTitle_def, htok, buildTokens]
    by_cases hs : s = []
    · simp [hs, joinSpace, trimStr, splitWs]
    · simp only [hs, if_neg, if_false]
      by_cases ht : 0 < (trimStr s).length
      · simp [List.filter, List.map, ht, joinSpace]
      · simp only [List.filter, List.map]
        have : (trimStr s).length = 0 := by omega
        have hnil : trimStr s = [] := List.eq_nil_of_length_eq_zero this
        simp [hnil, joinSpace]

/-- C7 counterexample: `"Regular  notes"` (two interior spaces) has no
accepted candidates, and its clean title keeps both spaces — it is the
trimmed original, not the whitespace-normalized one the claim asserts. -/
theorem c7_counterexample :
    findAllMatches refNow ("Regular  notes".toList) = [] ∧
      (parse refNow ("Regular  notes".toList)).cleanTitle = "Regular  notes".toList ∧
      (parse refNow ("Regular  notes".toList)).cleanTitle
        ≠ normalizeWsSpec ("Regular  notes".toList) := by
  refine ⟨by decide, by decide, by decide⟩


/-! Two-digit year expansion (C9): `findMostLikelyADYear` and the
`"Meeting 01/15/" ++ digits` round trip. -/

/-- The two decimal digits of `n < 100` as JS `String(n)` renders them for
`10 ≤ n`. -/
def digits2 (n : Nat) : Str := [Char.ofNat (48 + n / 10), Char.ofNat (48 + n % 10)]

/-- The round-trip input `"Meeting 01/15/" + (Y mod 100)` for a two-digit
year rendering. -/
def c9str (y2 : Nat) : Str := "Meeting 01/15/".toList ++ digits2 y2

/-- Every pattern's scan of `c9str y2`: only the slash-with-year and the
short slash recognizers fire, at spans `[8,16)` and `[8,13)`. -/
def c9Scans (y2 : Nat) : Prop :=
  strToNat (digits2 y2) = y2 ∧
  scanPattern rxToday (c9str y2) = [] ∧
  scanPattern rxTomorrow (c9str y2) = [] ∧
  scanPattern rxYesterday (c9str y2) = [] ∧
  scanPattern rxSunday (c9str y2) = [] ∧
  scanPattern rxMonday (c9str y2) = [] ∧
  scanPattern rxTuesday (c9str y2) = [] ∧
  scanPattern rxWednesday (c9str y2) = [] ∧
  scanPattern rxThursday (c9str y2) = [] ∧
  scanPattern rxFriday (c9str y2) = [] ∧
  scanPattern rxSaturday (c9str y2) = [] ∧
  scanPattern rxIso (c9str y2) = [] ∧
  scanPattern rxSlashYear (c9str y2) = [⟨8, 16, ["01".toList, "15".toList, digits2 y2]⟩] ∧
  scanPattern rxShortSlash (c9str y2) = [⟨8, 13, ["01".toList, "15".toList]⟩] ∧
  scanPattern rxMonthDayYear (c9str y2) = [] ∧
  scanPattern rxDayMonthYear (c9str y2) = [] ∧
  scanPattern rxMonthDay (c9str y2) = [] ∧
  scanPattern rxDayMonth (c9str y2) = []

instance (y2 : Nat) : Decidable (c9Scans y2) := by
  unfold c9Scans; infer_instance

set_option maxHeartbeats 16000000 in
theorem c9_scan_lo : ∀ k : Nat, k < 30 → c9Scans (10 + k) := by decide

set_option maxHeartbeats 16000000 in
theorem c9_scan_mid : ∀ k : Nat, k < 30 → c9Scans (40 + k) := by decide

set_option maxHeartbeats 16000000 in
theorem c9_scan_hi : ∀ k : Nat, k < 30 → c9Scans (70 + k) := by decide

theorem c9_scan (y2 : Nat) (hge : 10 ≤ y2) (hlt : y2 < 100) : c9Scans y2 := by
  rcases Nat.lt_or_ge y2 40 with h | h
  · have := c9_scan_lo (y2 - 10) (by omega)
    rwa [show 10 + (y2 - 10) = y2 by omega] at this
  · rcases Nat.lt_or_ge y2 70 with h' | h'
    · have := c9_scan_mid (y2 - 40) (by omega)
      rwa [show 40 + (y2 - 40) = y2 by omega] at this
    · have := c9_scan_hi (y2 - 70) (by omega)
      rwa [show 70 + (y2 - 70) = y2 by omega] at this

/-- From the per-pattern scans, the whole pipeline resolves `c9str y2` to
January 15 of the expanded year. -/
theorem c9_parse_of_scans (now : Now) (Y : Int) (y2 : Nat) (h : c9Scans y2)
    (hyr : now.year = Y) (hy2 : (y2 : Int) = Y % 100) :
    (parse now (c9str y2)).event = some (mkDateMs Y 0 15) := by
  obtain ⟨hnum, h0, h1, h2, h3, h4, h5, h6, h7, h8, h9, h10, h11, h12, h13, h14, h15, h16⟩ := h
  have hcap2 : capInt ["01".toList, "15".toList, digits2 y2] 2 =
      ((strToNat (digits2 y2) : Nat) : Int) := rfl
  rw [hnum] at hcap2
  have e0 : capInt ["01".toList, "15".toList, digits2 y2] 0 = (1 : Int) := rfl
  have e1 : capInt ["01".toList, "15".toList, digits2 y2] 1 = (15 : Int) := rfl
  have hnmd : normalizeMonthDay 1 15 true = some (15, 1) := by decide
  have hf : findMostLikelyADYear now.year ((y2 : Nat) : Int) = Y := by
    rw [hyr]
    simp only [findMostLikelyADYear]
    rw [if_neg (by omega), if_neg (by omega)]
    omega
  have hres1 : resolveSlashYear now ["01".toList, "15".toList, digits2 y2] =
      some (mkDateMs Y 0 15) := by
    simp only [resolveSlashYear, e0, e1, hnmd, hcap2, hf]
    rfl
  have hres2 : resolveShortSlash now ["01".toList, "15".toList] =
      some (findYearClosestToRef now 15 1) := rfl
  have hsl1 : ((c9str y2).drop 8).take (16 - 8) = "01/15/".toList ++ digits2 y2 := rfl
  have hsl2 : ((c9str y2).drop 8).take (13 - 8) = "01/15".toList := rfl
  have hfam : findAllMatches now (c9str y2) =
      [⟨8, 16, "01/15/".toList ++ digits2 y2, mkDateMs Y 0 15⟩,
       ⟨8, 13, "01/15".toList, findYearClosestToRef now 15 1⟩] := by
    simp only [findAllMatches, DATE_PATTERNS, List.flatMap_cons, List.flatMap_nil,
      h0, h1, h2, h3, h4, h5, h6, h7, h8, h9, h10, h11, h12, h13, h14, h15, h16,
      List.filterMap_nil, List.nil_append, List.append_nil, List.filterMap_cons,
      hres1, hres2, hsl1, hsl2, Option.map_some']
    rfl
  rw [parse_event_def, hfam]
  rfl

/-- **C9** (amended): `findMostLikelyADYear` leaves a year value of 100 or
more unchanged; a value `0 ≤ y < 100` goes to one of current-century `+ y`
and previous-century `+ y`, never farther from the reference year than
either candidate, and when the current-century candidate is at least as
close it wins (so ties resolve toward the current century).  Consequently,
for a reference year `Y ≥ 101` whose last two digits form a two-digit
rendering (`10 ≤ Y mod 100`), parsing `"Meeting 01/15/"` followed by those
two digits resolves to January 15 of year `Y`.  (For `Y mod 100 < 10` the
round trip fails — see the counterexample.) -/
theorem c9_two_digit_year_expansion :
    (∀ cy y : Int, 100 ≤ y → findMostLikelyADYear cy y = y) ∧
    (∀ cy y : Int, 0 ≤ y → y < 100 →
      (findMostLikelyADYear cy y = cy / 100 * 100 + y ∨
        findMostLikelyADYear cy y = cy / 100 * 100 - 100 + y) ∧
      (findMostLikelyADYear cy y - cy).natAbs ≤ (cy / 100 * 100 + y - cy).natAbs ∧
      (findMostLikelyADYear cy y - cy).natAbs ≤ (cy / 100 * 100 - 100 + y - cy).natAbs ∧
      ((cy / 100 * 100 + y - cy).natAbs ≤ (cy / 100 * 100 - 100 + y - cy).natAbs →
        findMostLikelyADYear cy y = cy / 100 * 100 + y)) ∧
    (∀ (Y : Int) (now : Now), now.year = Y → 101 ≤ Y → 10 ≤ Y % 100 →
      (parse now (c9str (Y % 100).toNat)).event = some (mkDateMs Y 0 15)) := by
  refine ⟨?_, ?_, ?_⟩
  · intro cy y h
    simp only [findMostLikelyADYear]
    rw [if_pos h]
  · intro cy y h0 h1
    simp only [findMostLikelyADYear]
    rw [if_neg (by omega)]
    split_ifs with hc
    · exact ⟨Or.inr rfl, by omega, by omega, by intro hh; omega⟩
    · exact ⟨Or.inl rfl, by omega, by omega, fun _ => rfl⟩
  · intro Y now hyr h101 h10
    exact c9_parse_of_scans now Y ((Y % 100).toNat)
      (c9_scan _ (by omega) (by omega)) hyr (by omega)

/-- C9 counterexample: for reference year 2005 the rendering of
`2005 mod 100` is the single digit `"5"`, the year-bearing slash pattern
needs two year digits, so only the short slash date `01/15` matches and the
nearest-date completion picks January 15 of **2006** (August 2005 is closer
to it), not 2005: the round trip `parse ("Meeting 01/15/" + (Y mod 100))`
does not return year `Y`. -/
theorem c9_counterexample :
    (2005 : Int) % 100 = 5 ∧
      "Meeting 01/15/".toList ++ ['5'] = "Meeting 01/15/5".toList ∧
      (parse ⟨mkDateMs 2005 7 20, 2005⟩ ("Meeting 01/15/5".toList)).event =
        some (mkDateMs 2006 0 15) ∧
      mkDateMs 2006 0 15 ≠ mkDateMs 2005 0 15 :=
  ⟨by decide, by decide, by rfl, by decide⟩

/-- Witness for C3 at a concrete candidate list. -/
theorem c3_witness :
    List.Pairwise (fun a b => a.stop ≤ b.start)
      (filterOverlappingMatches [⟨0, 5, "jan 1".toList, 0⟩, ⟨3, 4, "1".toList, 0⟩]) :=
  (c3_overlap_resolver [⟨0, 5, "jan 1".toList, 0⟩, ⟨3, 4, "1".toList, 0⟩]
    (by decide)).1

/-- Witness for C10 at the fixed reference instant and June 15. -/
theorem c10_witness :
    findYearClosestToRef refNow 15 6 = mkDateMs refNow.year (6 - 1) 15 ∨
      findYearClosestToRef refNow 15 6 = mkDateMs (refNow.year + 1) (6 - 1) 15 ∨
      findYearClosestToRef refNow 15 6 = mkDateMs (refNow.year - 1) (6 - 1) 15 :=
  (c10_nearest_year_completion refNow 15 6 (by decide) (by decide) (by decide)
    (by decide) (by decide) (by decide)).1

end GSmartAdd
